import Mathlib

/-!
The file `name.go` of goavro: names, validation and namespace qualification.

A shallow embedding of `name.go` and a verification of its specification.

Go strings are byte sequences, so a string is modelled as a list of bytes.  The
standard-library functions the file calls (`strings.ContainsRune`,
`strings.Contains`, `strings.LastIndex`, `strings.IndexFunc`, `regexp.Split`,
the UTF-8 decoding of a `range` loop) are modelled next to the code that uses
them.
-/

set_option autoImplicit false

namespace Goavro

/-! ## Go strings -/

/-- A Go `byte`. -/
abbrev Byte := Fin 256

/-- A Go `string`: an immutable sequence of bytes, not necessarily valid UTF-8. -/
abbrev GoString := List Byte

/-- The byte `'.'`. -/
def dot : Byte := 46

/-- Go `utf8.EncodeRune`: the UTF-8 encoding of a code point. -/
def encodeRune (r : Nat) : GoString :=
  if r < 0x80 then [Fin.ofNat r]
  else if r < 0x800 then [Fin.ofNat (0xC0 + r / 64), Fin.ofNat (0x80 + r % 64)]
  else if r < 0x10000 then
    [Fin.ofNat (0xE0 + r / 4096), Fin.ofNat (0x80 + r / 64 % 64), Fin.ofNat (0x80 + r % 64)]
  else
    [Fin.ofNat (0xF0 + r / 262144), Fin.ofNat (0x80 + r / 4096 % 64),
     Fin.ofNat (0x80 + r / 64 % 64), Fin.ofNat (0x80 + r % 64)]

/-- A Go string literal: the UTF-8 encoding of its text. -/
def lit (s : String) : GoString :=
  s.toList.flatMap (fun c => encodeRune c.toNat)

/-- Go `utf8.RuneError`, the replacement code point U+FFFD. -/
def RuneError : Nat := 0xFFFD

/-- Go `utf8.DecodeRuneInString`: the first code point of `s` and its width in
bytes.  An invalid or truncated encoding yields `(RuneError, 1)`; the empty
string yields `(RuneError, 0)`.  The accept ranges of the second byte exclude
overlong encodings, surrogates and code points above U+10FFFF. -/
def decodeRune (s : GoString) : Nat × Nat :=
  match s with
  | [] => (RuneError, 0)
  | s0 :: rest =>
    if s0.val < 0x80 then (s0.val, 1)
    else if s0.val < 0xC2 then (RuneError, 1)
    else if s0.val < 0xE0 then
      -- two bytes, second in 0x80..0xBF
      match rest with
      | s1 :: _ =>
        if s1.val < 0x80 ∨ 0xBF < s1.val then (RuneError, 1)
        else (s0.val % 32 * 64 + s1.val % 64, 2)
      | _ => (RuneError, 1)
    else if s0.val < 0xF0 then
      -- three bytes
      let lo := if s0.val = 0xE0 then 0xA0 else 0x80
      let hi := if s0.val = 0xED then 0x9F else 0xBF
      match rest with
      | s1 :: s2 :: _ =>
        if s1.val < lo ∨ hi < s1.val then (RuneError, 1)
        else if s2.val < 0x80 ∨ 0xBF < s2.val then (RuneError, 1)
        else (s0.val % 16 * 4096 + s1.val % 64 * 64 + s2.val % 64, 3)
      | _ => (RuneError, 1)
    else if s0.val < 0xF5 then
      -- four bytes
      let lo := if s0.val = 0xF0 then 0x90 else 0x80
      let hi := if s0.val = 0xF4 then 0x8F else 0xBF
      match rest with
      | s1 :: s2 :: s3 :: _ =>
        if s1.val < lo ∨ hi < s1.val then (RuneError, 1)
        else if s2.val < 0x80 ∨ 0xBF < s2.val then (RuneError, 1)
        else if s3.val < 0x80 ∨ 0xBF < s3.val then (RuneError, 1)
        else (s0.val % 8 * 262144 + s1.val % 64 * 4096 + s2.val % 64 * 64 + s3.val % 64, 4)
      | _ => (RuneError, 1)
    else (RuneError, 1)

/-- The loop `for i, r := range s { if f(r) { return i } }; return -1` of
`strings.IndexFunc`.  `skip` counts the bytes of the current code point still to
be stepped over and `i` is the byte offset of the head of the list. -/
def rangeIndex (f : Nat → Bool) : Nat → Nat → GoString → Int
  | _, _, [] => -1
  | 0, i, b :: rest =>
    if f (decodeRune (b :: rest)).1 then (i : Int)
    else rangeIndex f ((decodeRune (b :: rest)).2 - 1) (i + 1) rest
  | skip + 1, i, _ :: rest => rangeIndex f skip (i + 1) rest

/-- Go `strings.IndexFunc(s, f)`: the byte offset of the first code point of
`s` satisfying `f`, or `-1`. -/
def strings.IndexFunc (s : GoString) (f : Nat → Bool) : Int :=
  rangeIndex f 0 0 s

/-- Go `strings.IndexByte(s, c)`: the offset of the first `c` in `s`, or `-1`. -/
def strings.IndexByte (s : GoString) (c : Byte) : Int :=
  match s with
  | [] => -1
  | b :: rest =>
    if b = c then 0
    else if strings.IndexByte rest c = -1 then -1 else strings.IndexByte rest c + 1

/-- Go `strings.LastIndexByte(s, c)`: the offset of the last `c` in `s`, or `-1`. -/
def strings.LastIndexByte (s : GoString) (c : Byte) : Int :=
  match s with
  | [] => -1
  | b :: rest =>
    if strings.LastIndexByte rest c = -1 then (if b = c then 0 else -1)
    else strings.LastIndexByte rest c + 1

/-- Go `strings.ContainsRune(s, r)` for a rune below `utf8.RuneSelf`, where
`IndexRune` is `IndexByte`. -/
def strings.ContainsRune (s : GoString) (r : Byte) : Bool :=
  decide (strings.IndexByte s r ≥ 0)

/-- Go `strings.Contains(s, substr)` for a one-byte `substr`, where `Index` is
`IndexByte`. -/
def strings.Contains (s : GoString) (substr : Byte) : Bool :=
  decide (strings.IndexByte s substr ≥ 0)

/-- Go `strings.LastIndex(s, substr)` for a one-byte `substr`, where it is
`LastIndexByte`. -/
def strings.LastIndex (s : GoString) (substr : Byte) : Int :=
  strings.LastIndexByte s substr

/-- The slice expression `s[lo:hi]`. -/
def slice (s : GoString) (lo hi : Nat) : GoString :=
  (s.drop lo).take (hi - lo)

/-! ## `regexp.Split` for `namespaceSplitter = regexp.MustCompile("\\.")` -/

/-- The matches `FindAllStringIndex` reports for the pattern `\.`: one pair
`[i, i+1]` for every offset `i` holding the byte `'.'` (that byte never
occurs inside a multi-byte code point).  `i` is the offset of the head. -/
def findAllDot : Nat → GoString → List (Nat × Nat)
  | _, [] => []
  | i, b :: rest =>
    if b = dot then (i, i + 1) :: findAllDot (i + 1) rest else findAllDot (i + 1) rest

/-- The loop of `Regexp.Split` over the matches, for `n < 0`: the state is
`(beg, end, strings)`. -/
def splitLoop (s : GoString) : List (Nat × Nat) → Nat × Nat × List GoString → Nat × Nat × List GoString
  | [], st => st
  | m :: ms, (beg, _, strs) =>
    splitLoop s ms (m.2, m.1, if m.2 ≠ 0 then strs ++ [slice s beg m.1] else strs)

/-- Go `namespaceSplitter.Split(s, -1)`. -/
def namespaceSplitter.Split (s : GoString) : List GoString :=
  if s.length = 0 then [[]]
  else
    match splitLoop s (findAllDot 0 s) (0, 0, []) with
    | (beg, end_, strs) =>
      if end_ ≠ s.length then strs ++ [slice s beg s.length] else strs

/-! ## The name value -/

/-- Go `type name struct { n, ns, ens string }`: the name, the namespace and the
enclosing namespace. -/
structure name where
  n : GoString
  ns : GoString
  ens : GoString
  deriving DecidableEq, Repr

/-- A Go `error` value produced by this file: a `*ErrInvalidName` with its
`Message`, or the error made by `fmt.Errorf` with its text. -/
inductive GoError where
  | ErrInvalidName (Message : String)
  | errorString (text : String)
  deriving DecidableEq, Repr

/-- Go `ErrInvalidName.Error`. -/
def GoError.Error : GoError → String
  | .ErrInvalidName Message =>
    "The name portion of a fullname, record field names, and enum symbols must " ++ Message
  | .errorString text => text

/-- Go `type nameSetter func(*name) error`: the name the pointer refers to
after the call, and the returned error (`none` is `nil`). -/
abbrev nameSetter := name → name × Option GoError

/-- The loop of `newName` over the setters: stops at the first error. -/
def applySetters : List nameSetter → name → name × Option GoError
  | [], n => (n, none)
  | setter :: rest, n =>
    match setter n with
    | (n1, some err) => (n1, some err)
    | (n1, none) => applySetters rest n1

/-- Go `newName`: the returned `*name` (`none` is `nil`) and error. -/
def newName (setters : List nameSetter) : Option name × Option GoError :=
  match applySetters setters { n := [], ns := [], ens := [] } with
  | (_, some err) => (none, some err)
  | (n, none) =>
    -- if name contains dot, then ignore namespace and enclosing namespace
    if !strings.ContainsRune n.n dot then
      if n.ns ≠ [] then (some { n with n := n.ns ++ lit "." ++ n.n }, none)
      else if n.ens ≠ [] then (some { n with n := n.ens ++ lit "." ++ n.n }, none)
      else (some n, none)
    else (some n, none)

/-- A Go `interface{}` value of a decoded schema. -/
inductive Value where
  | nil
  | bool (b : Bool)
  | float64 (x : Int)
  | string (s : GoString)
  | slice (xs : List Value)
  | map (kvs : List (GoString × Value))

/-- The type assertion `val.(string)` in its two-result form. -/
def Value.assertString : Value → GoString × Bool
  | .string s => (s, true)
  | _ => ([], false)

/-- Go `map[string]interface{}`, as its list of entries. -/
abbrev Schema := List (GoString × Value)

/-- The map index `schema[key]` in its two-result form. -/
def Schema.index (schema : Schema) (key : GoString) : Value × Bool :=
  match schema.lookup key with
  | some val => (val, true)
  | none => (Value.nil, false)

/-- Go `nameSchema`.  `%T` of the `*name` argument prints `*goavro.name`. -/
def nameSchema (schema : Schema) : nameSetter := fun n =>
  match schema.index (lit "name") with
  | (_, false) => (n, some (.errorString "ought to have name key"))
  | (val, true) =>
    let n1 : name := { n with n := val.assertString.1 }
    if !val.assertString.2 || n1.n.length == 0 then
      (n1, some (.errorString "name ought to be non-empty string: *goavro.name"))
    else
      match schema.index (lit "namespace") with
      | (val, true) =>
        let n2 : name := { n1 with ns := val.assertString.1 }
        if !val.assertString.2 then
          (n2, some (.errorString "namespace ought to be a string: *goavro.name"))
        else (n2, none)
      | (_, false) => (n1, none)

/-- Go `isRuneInvalidForFirstCharacter`; `'A' = 65`, `'Z' = 90`, `'a' = 97`,
`'z' = 122`, `'_' = 95`. -/
def isRuneInvalidForFirstCharacter (r : Nat) : Bool :=
  if (r ≥ 65 ∧ r ≤ 90) ∨ (r ≥ 97 ∧ r ≤ 122) ∨ r = 95 then false
  else true

/-- Go `isRuneInvalidForOtherCharacters`; `'0' = 48`, `'9' = 57`. -/
def isRuneInvalidForOtherCharacters (r : Nat) : Bool :=
  if r ≥ 48 ∧ r ≤ 57 then false
  else isRuneInvalidForFirstCharacter r

/-- Go `checkName` (`none` is `nil`). -/
def checkName (s : GoString) : Option GoError :=
  if s.length = 0 then some (.ErrInvalidName "not be empty")
  else if strings.IndexFunc (slice s 0 1) isRuneInvalidForFirstCharacter ≠ -1 then
    some (.ErrInvalidName "start with [A-Za-z_]")
  else if strings.IndexFunc (slice s 1 s.length) isRuneInvalidForOtherCharacters ≠ -1 then
    some (.ErrInvalidName "have second and remaining characters contain only [A-Za-z0-9_]")
  else none

/-- The local name `nameName` validates: `parts[len(parts)-1]` of the split when
the name contains a dot (the split of such a name is never empty, see
`Split_ne_nil`), the name itself otherwise. -/
def nameWithoutNamespace (someName : GoString) : GoString :=
  if strings.Contains someName dot then
    (namespaceSplitter.Split someName).getLastD []
  else someName

/-- Go `nameName`. -/
def nameName (someName : GoString) : nameSetter := fun n =>
  match checkName (nameWithoutNamespace someName) with
  | none => ({ n with n := someName }, none)
  | some err => (n, some err)

/-- Go `nameEnclosingNamespace`. -/
def nameEnclosingNamespace (someNamespace : GoString) : nameSetter := fun n =>
  ({ n with ens := someNamespace }, none)

/-- Go `nameNamespace`. -/
def nameNamespace (someNamespace : GoString) : nameSetter := fun n =>
  ({ n with ns := someNamespace }, none)

/-- Go `(*name).equals`. -/
def name.equals (n b : name) : Bool :=
  if n.n = b.n then true else false

/-- Go `name.namespace`. -/
def name.namespace_ (n : name) : GoString :=
  if strings.LastIndex n.n dot = -1 then []
  else slice n.n 0 (strings.LastIndex n.n dot).toNat

/-- Go `name.String`. -/
def name.String (n : name) : GoString := n.n

/-! ## Definitions taken from the specification -/

/-- The character class `[A-Za-z_]` of the specification, on a byte. -/
def isNameStart (b : Byte) : Bool :=
  (65 ≤ b.val && b.val ≤ 90) || (97 ≤ b.val && b.val ≤ 122) || b.val == 95

/-- The character class `[A-Za-z0-9_]` of the specification, on a byte. -/
def isNameRest (b : Byte) : Bool :=
  isNameStart b || (48 ≤ b.val && b.val ≤ 57)

/-- The pattern `^[A-Za-z_][A-Za-z0-9_]*$` of the specification: a first
character of the first class followed by characters of the second class.  Both
classes are ASCII, so a string matches exactly when its bytes do. -/
def matchesNamePattern : GoString → Bool
  | [] => false
  | b :: rest => isNameStart b && rest.all isNameRest

/-- The local name of the specification: the segment after the final separator,
the whole string when there is none. -/
def localName (s : GoString) : GoString :=
  (s.reverse.takeWhile (fun b => b ≠ dot)).reverse

/-- The qualification algorithm of the specification (section 4.3). -/
def qualify (raw_name raw_namespace raw_enclosing_namespace : GoString) : GoString :=
  if dot ∈ raw_name then raw_name
  else if raw_namespace ≠ [] then raw_namespace ++ [dot] ++ raw_name
  else if raw_enclosing_namespace ≠ [] then raw_enclosing_namespace ++ [dot] ++ raw_name
  else raw_name

/-- The specification's "every step succeeds": running the steps `steps` in
order from the name `st` leaves the name `st1`, no step returning an error. -/
inductive StepsOk : name → List nameSetter → name → Prop where
  | nil (st : name) : StepsOk st [] st
  | cons {st st1 st2 : name} {step : nameSetter} {rest : List nameSetter} :
      step st = (st1, none) → StepsOk st1 rest st2 → StepsOk st (step :: rest) st2

/-- The standard steps of the builder. -/
inductive Step where
  | fromSchema (schema : Schema)
  | fromName (someName : GoString)
  | fromNamespace (someNamespace : GoString)
  | fromEnclosingNamespace (someNamespace : GoString)

/-- The setter a standard step stands for. -/
def Step.setter : Step → nameSetter
  | .fromSchema schema => nameSchema schema
  | .fromName someName => nameName someName
  | .fromNamespace someNamespace => nameNamespace someNamespace
  | .fromEnclosingNamespace someNamespace => nameEnclosingNamespace someNamespace

/-- Whether a standard step assigns the raw name. -/
def Step.setsName : Step → Bool
  | .fromSchema _ => true
  | .fromName _ => true
  | _ => false

/-! ## Lemmas on the string functions -/

theorem lit_dot : lit "." = [dot] := by decide

theorem IndexByte_ge (s : GoString) (c : Byte) : -1 ≤ strings.IndexByte s c := by
  induction s with
  | nil => simp [strings.IndexByte]
  | cons b rest ih =>
    unfold strings.IndexByte
    split_ifs <;> omega

theorem IndexByte_nonneg_iff (s : GoString) (c : Byte) :
    0 ≤ strings.IndexByte s c ↔ c ∈ s := by
  induction s with
  | nil => simp [strings.IndexByte]
  | cons b rest ih =>
    have hge := IndexByte_ge rest c
    unfold strings.IndexByte
    by_cases hb : b = c
    · simp [hb]
    · have hcb : ¬ c = b := fun h => hb h.symm
      simp only [hb, if_false, List.mem_cons, hcb, false_or]
      rw [← ih]
      split_ifs <;> omega

theorem ContainsRune_iff (s : GoString) (c : Byte) :
    strings.ContainsRune s c = true ↔ c ∈ s := by
  simp [strings.ContainsRune, IndexByte_nonneg_iff]

theorem Contains_iff (s : GoString) (c : Byte) :
    strings.Contains s c = true ↔ c ∈ s := by
  simp [strings.Contains, IndexByte_nonneg_iff]

theorem LastIndexByte_ge (s : GoString) (c : Byte) : -1 ≤ strings.LastIndexByte s c := by
  induction s with
  | nil => simp [strings.LastIndexByte]
  | cons b rest ih =>
    unfold strings.LastIndexByte
    split_ifs <;> omega

theorem LastIndexByte_not_mem (s : GoString) (c : Byte) (h : c ∉ s) :
    strings.LastIndexByte s c = -1 := by
  induction s with
  | nil => simp [strings.LastIndexByte]
  | cons b rest ih =>
    simp only [List.mem_cons, not_or] at h
    have hb : ¬ b = c := fun e => h.1 e.symm
    unfold strings.LastIndexByte
    simp [ih h.2, hb]

theorem LastIndexByte_append (p l : GoString) (c : Byte) (h : c ∉ l) :
    strings.LastIndexByte (p ++ c :: l) c = (p.length : Int) := by
  induction p with
  | nil =>
    simp only [List.nil_append, List.length_nil]
    unfold strings.LastIndexByte
    simp [LastIndexByte_not_mem l c h]
  | cons b rest ih =>
    simp only [List.cons_append, List.length_cons]
    unfold strings.LastIndexByte
    rw [ih]
    have : ¬ ((rest.length : Int) = -1) := by omega
    simp [this]

/-! ## Lemmas on UTF-8 decoding and `strings.IndexFunc` -/

theorem decodeRune_ascii (b : Byte) (rest : GoString) (h : b.val < 128) :
    decodeRune (b :: rest) = (b.val, 1) := by
  simp [decodeRune, h]

theorem decodeRune_high (b : Byte) (rest : GoString) (h : 128 ≤ b.val) :
    128 ≤ (decodeRune (b :: rest)).1 := by
  have hb := b.isLt
  unfold decodeRune
  simp only [RuneError]
  split_ifs <;> first
    | omega
    | (split <;> (try split_ifs) <;> (try simp only []) <;> omega)

theorem isRuneInvalidForFirstCharacter_high (r : Nat) (h : 128 ≤ r) :
    isRuneInvalidForFirstCharacter r = true := by
  unfold isRuneInvalidForFirstCharacter
  rw [if_neg]
  omega

theorem isRuneInvalidForOtherCharacters_high (r : Nat) (h : 128 ≤ r) :
    isRuneInvalidForOtherCharacters r = true := by
  unfold isRuneInvalidForOtherCharacters
  rw [if_neg (by omega)]
  exact isRuneInvalidForFirstCharacter_high r h

theorem isRuneInvalidForFirstCharacter_eq (b : Byte) :
    isRuneInvalidForFirstCharacter b.val = !isNameStart b := by
  unfold isRuneInvalidForFirstCharacter isNameStart
  by_cases h : (b.val ≥ 65 ∧ b.val ≤ 90) ∨ (b.val ≥ 97 ∧ b.val ≤ 122) ∨ b.val = 95
  · rw [if_pos h]
    rcases h with h | h | h <;> simp [h]
  · rw [if_neg h]
    simp only [not_or, not_and, ge_iff_le] at h
    simp only [Bool.true_eq, Bool.not_eq_true', Bool.or_eq_false_iff, Bool.and_eq_false_iff,
      decide_eq_false_iff_not, beq_eq_false_iff_ne, ne_eq]
    refine ⟨⟨?_, ?_⟩, h.2.2⟩
    · by_cases h1 : 65 ≤ b.val
      · exact Or.inr (h.1 h1)
      · exact Or.inl h1
    · by_cases h1 : 97 ≤ b.val
      · exact Or.inr (h.2.1 h1)
      · exact Or.inl h1

theorem isRuneInvalidForOtherCharacters_eq (b : Byte) :
    isRuneInvalidForOtherCharacters b.val = !isNameRest b := by
  unfold isRuneInvalidForOtherCharacters isNameRest
  rw [isRuneInvalidForFirstCharacter_eq]
  by_cases h : b.val ≥ 48 ∧ b.val ≤ 57
  · rw [if_pos h]
    simp [h.1, h.2]
  · rw [if_neg h]
    have : (decide (48 ≤ b.val) && decide (b.val ≤ 57)) = false := by
      simpa using h
    rw [this]
    simp

/-- The range loop finds no code point satisfying `f` exactly when no byte
does, for a predicate that holds of every code point outside ASCII. -/
theorem rangeIndex_eq_neg_one_iff (f : Nat → Bool) (hf : ∀ r, 128 ≤ r → f r = true)
    (s : GoString) (i : Nat) :
    rangeIndex f 0 i s = -1 ↔ ∀ b ∈ s, f b.val = false := by
  induction s generalizing i with
  | nil => simp [rangeIndex]
  | cons b rest ih =>
    unfold rangeIndex
    by_cases hb : b.val < 128
    · rw [decodeRune_ascii b rest hb]
      by_cases hfb : f b.val = true
      · simp only [hfb, if_true, List.mem_cons, forall_eq_or_imp]
        constructor
        · intro h; omega
        · intro h; simp at h
      · simp only [hfb, Bool.false_eq_true, if_false, List.mem_cons, forall_eq_or_imp]
        rw [show 1 - 1 = 0 from rfl, ih (i + 1)]
        simp [hfb]
    · have hhigh := decodeRune_high b rest (by omega)
      have h1 := hf _ hhigh
      have h2 := hf b.val (by omega)
      simp only [h1, if_true, List.mem_cons, forall_eq_or_imp, h2]
      constructor
      · intro h; omega
      · intro h; simp at h

theorem IndexFunc_first (s : GoString) :
    strings.IndexFunc s isRuneInvalidForFirstCharacter = -1 ↔ ∀ b ∈ s, isNameStart b = true := by
  unfold strings.IndexFunc
  rw [rangeIndex_eq_neg_one_iff _ isRuneInvalidForFirstCharacter_high]
  simp [isRuneInvalidForFirstCharacter_eq]

theorem IndexFunc_other (s : GoString) :
    strings.IndexFunc s isRuneInvalidForOtherCharacters = -1 ↔ ∀ b ∈ s, isNameRest b = true := by
  unfold strings.IndexFunc
  rw [rangeIndex_eq_neg_one_iff _ isRuneInvalidForOtherCharacters_high]
  simp [isRuneInvalidForOtherCharacters_eq]

theorem slice_zero_one (b : Byte) (rest : GoString) : slice (b :: rest) 0 1 = [b] := by
  simp [slice]

theorem slice_one_length (b : Byte) (rest : GoString) :
    slice (b :: rest) 1 (b :: rest).length = rest := by
  simp [slice]

theorem checkName_nil : checkName [] = some (.ErrInvalidName "not be empty") := by
  simp [checkName]

/-- The three tests of `checkName` on a non-empty string, on its bytes. -/
theorem checkName_cons (b : Byte) (rest : GoString) :
    checkName (b :: rest) =
      if isNameStart b = false then some (.ErrInvalidName "start with [A-Za-z_]")
      else if rest.all isNameRest = false then
        some (.ErrInvalidName
          "have second and remaining characters contain only [A-Za-z0-9_]")
      else none := by
  unfold checkName
  rw [slice_zero_one, slice_one_length]
  rw [if_neg (by simp)]
  have h1 : strings.IndexFunc [b] isRuneInvalidForFirstCharacter ≠ -1 ↔ isNameStart b = false := by
    rw [Ne, IndexFunc_first]; simp
  have h2 : strings.IndexFunc rest isRuneInvalidForOtherCharacters ≠ -1 ↔
      rest.all isNameRest = false := by
    rw [Ne, IndexFunc_other]
    rw [← Bool.not_eq_true, List.all_eq_true]
  by_cases c1 : isNameStart b = false
  · rw [if_pos (h1.2 c1), if_pos c1]
  · rw [if_neg (fun h => c1 (h1.1 h)), if_neg c1]
    by_cases c2 : rest.all isNameRest = false
    · rw [if_pos (h2.2 c2), if_pos c2]
    · rw [if_neg (fun h => c2 (h2.1 h)), if_neg c2]

/-! ## Lemmas on the local name and on `Split` -/

theorem localName_of_not_mem (s : GoString) (h : dot ∉ s) : localName s = s := by
  unfold localName
  rw [List.takeWhile_eq_self_iff.2, List.reverse_reverse]
  intro b hb
  have hb1 : b ∈ s := List.mem_reverse.1 hb
  simpa using fun e : b = dot => h (e ▸ hb1)

theorem localName_append (p l : GoString) (h : dot ∉ l) :
    localName (p ++ dot :: l) = l := by
  unfold localName
  have hrev : (p ++ dot :: l).reverse = l.reverse ++ dot :: p.reverse := by simp
  rw [hrev, List.takeWhile_append_of_pos, List.takeWhile_cons]
  · simp
  · intro b hb
    have hb1 : b ∈ l := List.mem_reverse.1 hb
    simpa using fun e : b = dot => h (e ▸ hb1)

/-- A string containing a dot splits at its last dot. -/
theorem exists_last_dot (s : GoString) (h : dot ∈ s) :
    ∃ p l, s = p ++ dot :: l ∧ dot ∉ l := by
  induction s with
  | nil => simp at h
  | cons b rest ih =>
    by_cases hr : dot ∈ rest
    · obtain ⟨p, l, hs, hl⟩ := ih hr
      exact ⟨b :: p, l, by simp [hs], hl⟩
    · rcases List.mem_cons.1 h with hb | hb
      · exact ⟨[], rest, by simp [hb], hr⟩
      · exact absurd hb hr

theorem localName_not_mem (s : GoString) : dot ∉ localName s := by
  by_cases h : dot ∈ s
  · obtain ⟨p, l, hs, hl⟩ := exists_last_dot s h
    rw [hs, localName_append p l hl]
    exact hl
  · rw [localName_of_not_mem s h]
    exact h

theorem getLastOpt_cons_of_ne_nil {α : Type} (a : α) (xs : List α) (h : xs ≠ []) :
    (a :: xs).getLast? = xs.getLast? := by
  cases xs with
  | nil => exact absurd rfl h
  | cons b rest => rw [List.getLast?_cons_cons]

theorem findAllDot_not_mem (i : Nat) (l : GoString) (h : dot ∉ l) : findAllDot i l = [] := by
  induction l generalizing i with
  | nil => rfl
  | cons b rest ih =>
    simp only [List.mem_cons, not_or] at h
    have hb : ¬ b = dot := fun e => h.1 e.symm
    simp [findAllDot, hb, ih (i + 1) h.2]

theorem findAllDot_getLast (i : Nat) (p l : GoString) (h : dot ∉ l) :
    (findAllDot i (p ++ dot :: l)).getLast? = some (i + p.length, i + p.length + 1) := by
  induction p generalizing i with
  | nil => simp [findAllDot, findAllDot_not_mem (i + 1) l h]
  | cons b rest ih =>
    have ih1 := ih (i + 1)
    have hne : findAllDot (i + 1) (rest ++ dot :: l) ≠ [] := by
      intro e; rw [e] at ih1; simp at ih1
    have hlen : i + (rest.length + 1) = i + 1 + rest.length := by omega
    rw [List.cons_append, List.length_cons, hlen]
    unfold findAllDot
    split_ifs
    · rw [getLastOpt_cons_of_ne_nil _ _ hne, ih1]
    · rw [ih1]

/-- The loop of `Split` ends with `beg` and `end` taken from the last match and
with the collected strings extended. -/
theorem splitLoop_last (s : GoString) (ms : List (Nat × Nat)) (m : Nat × Nat)
    (st : Nat × Nat × List GoString) (h : ms.getLast? = some m) :
    (splitLoop s ms st).1 = m.2 ∧ (splitLoop s ms st).2.1 = m.1 := by
  induction ms generalizing st with
  | nil => simp at h
  | cons a rest ih =>
    obtain ⟨beg, e, strs⟩ := st
    cases rest with
    | nil =>
      simp only [List.getLast?_singleton, Option.some.injEq] at h
      subst h
      simp [splitLoop]
    | cons a1 rest1 =>
      rw [List.getLast?_cons_cons] at h
      unfold splitLoop
      exact ih _ h

/-- The split of a name containing a dot ends with the segment after its last
dot. -/
theorem Split_append (p l : GoString) (h : dot ∉ l) :
    ∃ strs, namespaceSplitter.Split (p ++ dot :: l) = strs ++ [l] := by
  have hlast := findAllDot_getLast 0 p l h
  have hloop := splitLoop_last (p ++ dot :: l) _ _ (0, 0, []) hlast
  unfold namespaceSplitter.Split
  rw [if_neg (by simp)]
  generalize splitLoop (p ++ dot :: l) (findAllDot 0 (p ++ dot :: l)) (0, 0, []) = r at hloop
  obtain ⟨beg, e, strs⟩ := r
  simp only [Nat.zero_add] at hloop
  obtain ⟨h1, h2⟩ := hloop
  subst h1 h2
  refine ⟨strs, ?_⟩
  simp only [List.length_append, List.length_cons]
  rw [if_pos (by omega)]
  congr 2
  unfold slice
  rw [show p.length + 1 = (p ++ [dot]).length by simp,
    show p ++ dot :: l = (p ++ [dot]) ++ l by simp, List.drop_left]
  apply List.take_of_length_le
  simp only [List.length_append, List.length_cons, List.length_nil]
  omega

/-- The index `parts[len(parts)-1]` in `nameName` is in range. -/
theorem Split_ne_nil (s : GoString) (h : strings.Contains s dot = true) :
    namespaceSplitter.Split s ≠ [] := by
  obtain ⟨p, l, hs, hl⟩ := exists_last_dot s ((Contains_iff s dot).1 h)
  obtain ⟨strs, hsplit⟩ := Split_append p l hl
  rw [hs, hsplit]
  simp

/-- The name `nameName` validates is the local name of the specification. -/
theorem nameWithoutNamespace_eq (s : GoString) : nameWithoutNamespace s = localName s := by
  unfold nameWithoutNamespace
  by_cases h : dot ∈ s
  · rw [if_pos ((Contains_iff s dot).2 h)]
    obtain ⟨p, l, hs, hl⟩ := exists_last_dot s h
    obtain ⟨strs, hsplit⟩ := Split_append p l hl
    rw [hs, hsplit, localName_append p l hl]
    simp [List.getLastD_eq_getLast?]
  · rw [if_neg (fun c => h ((Contains_iff s dot).1 c)), localName_of_not_mem s h]

/-! ## Lemmas on the validator and on the builder loop -/

theorem checkName_eq_none_iff (s : GoString) :
    checkName s = none ↔ matchesNamePattern s = true := by
  cases s with
  | nil => simp [checkName_nil, matchesNamePattern]
  | cons b rest =>
    rw [checkName_cons]
    show _ ↔ (isNameStart b && rest.all isNameRest) = true
    by_cases c1 : isNameStart b = false
    · simp [c1]
    · by_cases c2 : rest.all isNameRest = false
      · rw [if_neg c1, if_pos c2, c2]; simp
      · rw [if_neg c1, if_neg c2]
        simp only [Bool.not_eq_false] at c1 c2
        simp only [c1, c2]
        simp

theorem dot_not_mem_of_matches (s : GoString) (h : matchesNamePattern s = true) : dot ∉ s := by
  cases s with
  | nil => simp
  | cons b rest =>
    simp only [matchesNamePattern, Bool.and_eq_true, List.all_eq_true] at h
    intro hmem
    rcases List.mem_cons.1 hmem with e | e
    · rw [← e] at h
      exact absurd h.1 (by decide)
    · exact absurd (h.2 dot e) (by decide)

theorem dot_not_mem_of_checkName (s : GoString) (h : checkName s = none) : dot ∉ s :=
  dot_not_mem_of_matches s ((checkName_eq_none_iff s).1 h)

theorem ne_nil_of_checkName (s : GoString) (h : checkName s = none) : s ≠ [] := by
  intro e
  rw [e, checkName_nil] at h
  exact absurd h (by simp)

theorem nameName_of_ok (s : GoString) (n : name) (h : checkName (localName s) = none) :
    nameName s n = ({ n with n := s }, none) := by
  unfold nameName
  rw [nameWithoutNamespace_eq, h]

theorem nameName_of_err (s : GoString) (n : name) (e : GoError)
    (h : checkName (localName s) = some e) : nameName s n = (n, some e) := by
  unfold nameName
  rw [nameWithoutNamespace_eq, h]

theorem applySetters_append (pre post : List nameSetter) (st : name) :
    applySetters (pre ++ post) st =
      match applySetters pre st with
      | (st1, some err) => (st1, some err)
      | (st1, none) => applySetters post st1 := by
  induction pre generalizing st with
  | nil => simp [applySetters]
  | cons step rest ih =>
    rw [List.cons_append]
    show (match step st with
      | (n1, some err) => (n1, some err)
      | (n1, none) => applySetters (rest ++ post) n1) =
      match (match step st with
        | (n1, some err) => (n1, some err)
        | (n1, none) => applySetters rest n1) with
      | (st1, some err) => (st1, some err)
      | (st1, none) => applySetters post st1
    rcases hstep : step st with ⟨st1, _ | err⟩
    · exact ih st1
    · rfl

theorem StepsOk_iff (steps : List nameSetter) (st st1 : name) :
    StepsOk st steps st1 ↔ applySetters steps st = (st1, none) := by
  constructor
  · intro h
    induction h with
    | nil st => rfl
    | cons hstep _ ih => simp only [applySetters, hstep, ih]
  · intro h
    induction steps generalizing st with
    | nil =>
      simp only [applySetters, Prod.mk.injEq, and_true] at h
      subst h
      exact StepsOk.nil st
    | cons step rest ih =>
      simp only [applySetters] at h
      rcases hstep : step st with ⟨st2, _ | err⟩
      · rw [hstep] at h
        exact StepsOk.cons hstep (ih st2 h)
      · rw [hstep] at h
        simp at h

theorem qualify_eq (r ns ens : GoString) :
    qualify r ns ens =
      if dot ∈ r then r
      else if ns ≠ [] then ns ++ lit "." ++ r
      else if ens ≠ [] then ens ++ lit "." ++ r
      else r := by
  rw [lit_dot]; rfl

theorem newName_of_ok (setters : List nameSetter) (raw : name)
    (h : applySetters setters ⟨[], [], []⟩ = (raw, none)) :
    newName setters = (some { raw with n := qualify raw.n raw.ns raw.ens }, none) := by
  unfold newName
  rw [h, qualify_eq]
  simp only []
  by_cases hd : dot ∈ raw.n
  · simp [(ContainsRune_iff raw.n dot).2 hd, hd]
  · have hc : strings.ContainsRune raw.n dot = false := by
      rw [← Bool.not_eq_true, ContainsRune_iff]; exact hd
    simp only [hc, Bool.not_false, if_true, hd, if_false]
    split_ifs <;> rfl

theorem newName_of_err (setters : List nameSetter) (st : name) (e : GoError)
    (h : applySetters setters ⟨[], [], []⟩ = (st, some e)) :
    newName setters = (none, some e) := by
  unfold newName
  rw [h]

theorem newName_ok_inv (setters : List nameSetter) (h : (newName setters).2 = none) :
    ∃ raw, applySetters setters ⟨[], [], []⟩ = (raw, none) := by
  rcases hr : applySetters setters ⟨[], [], []⟩ with ⟨raw, _ | e⟩
  · exact ⟨raw, rfl⟩
  · rw [newName_of_err setters raw e hr] at h
    simp at h

/-- Every run of the steps either succeeds throughout or has a first failing
step. -/
theorem StepsOk_or_first_failure (setters : List nameSetter) (st0 : name) :
    (∃ st, StepsOk st0 setters st) ∨
    ∃ pre step post st st1 e, setters = pre ++ step :: post ∧ StepsOk st0 pre st ∧
      step st = (st1, some e) := by
  induction setters generalizing st0 with
  | nil => exact Or.inl ⟨st0, StepsOk.nil st0⟩
  | cons step rest ih =>
    rcases hstep : step st0 with ⟨st1, _ | e⟩
    · rcases ih st1 with ⟨st, hok⟩ | ⟨pre, step1, post, st, st2, e, hs, hok, hfail⟩
      · exact Or.inl ⟨st, StepsOk.cons hstep hok⟩
      · exact Or.inr ⟨step :: pre, step1, post, st, st2, e, by simp [hs],
          StepsOk.cons hstep hok, hfail⟩
    · exact Or.inr ⟨[], step, rest, st0, st1, e, rfl, StepsOk.nil st0, hstep⟩

theorem applySetters_first_failure (pre post : List nameSetter) (step : nameSetter)
    (st0 st st1 : name) (e : GoError) (hpre : StepsOk st0 pre st)
    (hstep : step st = (st1, some e)) :
    applySetters (pre ++ step :: post) st0 = (st1, some e) := by
  rw [applySetters_append, (StepsOk_iff pre st0 st).1 hpre]
  simp only [applySetters, hstep]

/-! ## Lemmas on the standard steps -/

theorem nameSchema_no_name (m : Schema) (n : name) (h : m.lookup (lit "name") = none) :
    nameSchema m n = (n, some (.errorString "ought to have name key")) := by
  simp [nameSchema, Schema.index, h]

theorem nameSchema_bad_name (m : Schema) (n : name) (v : Value)
    (h : m.lookup (lit "name") = some v) (hv : ∀ s, v = .string s → s = []) :
    nameSchema m n =
      ({ n with n := [] },
        some (.errorString "name ought to be non-empty string: *goavro.name")) := by
  cases v with
  | string s =>
    have hs : s = [] := hv s rfl
    subst hs
    simp [nameSchema, Schema.index, h, Value.assertString]
  | _ => simp [nameSchema, Schema.index, h, Value.assertString]

theorem nameSchema_no_namespace (m : Schema) (n : name) (s : GoString)
    (h : m.lookup (lit "name") = some (.string s)) (hs : s ≠ [])
    (hns : m.lookup (lit "namespace") = none) :
    nameSchema m n = ({ n with n := s }, none) := by
  simp [nameSchema, Schema.index, h, hns, Value.assertString, hs]

theorem nameSchema_namespace (m : Schema) (n : name) (s t : GoString)
    (h : m.lookup (lit "name") = some (.string s)) (hs : s ≠ [])
    (hns : m.lookup (lit "namespace") = some (.string t)) :
    nameSchema m n = ({ n with n := s, ns := t }, none) := by
  simp [nameSchema, Schema.index, h, hns, Value.assertString, hs]

theorem nameSchema_bad_namespace (m : Schema) (n : name) (s : GoString) (v : Value)
    (h : m.lookup (lit "name") = some (.string s)) (hs : s ≠ [])
    (hns : m.lookup (lit "namespace") = some v) (hv : ∀ t, v ≠ .string t) :
    nameSchema m n =
      ({ n with n := s, ns := [] },
        some (.errorString "namespace ought to be a string: *goavro.name")) := by
  cases v with
  | string t => exact absurd rfl (hv t)
  | _ => simp [nameSchema, Schema.index, h, hns, Value.assertString, hs]

/-- A successful `nameSchema` leaves a non-empty raw name. -/
theorem nameSchema_ok_ne_nil (m : Schema) (n n1 : name) (h : nameSchema m n = (n1, none)) :
    n1.n ≠ [] := by
  rcases hname : m.lookup (lit "name") with _ | v
  · rw [nameSchema_no_name m n hname] at h
    simp at h
  · by_cases hv : ∀ s, v = .string s → s = []
    · rw [nameSchema_bad_name m n v hname hv] at h
      simp at h
    · push_neg at hv
      obtain ⟨s, hvs, hs⟩ := hv
      subst hvs
      rcases hns : m.lookup (lit "namespace") with _ | w
      · rw [nameSchema_no_namespace m n s hname hs hns] at h
        simp only [Prod.mk.injEq, and_true] at h
        rw [← h]; exact hs
      · by_cases hw : ∀ t, w ≠ .string t
        · rw [nameSchema_bad_namespace m n s w hname hs hns hw] at h
          simp at h
        · push_neg at hw
          obtain ⟨t, hwt⟩ := hw
          subst hwt
          rw [nameSchema_namespace m n s t hname hs hns] at h
          simp only [Prod.mk.injEq, and_true] at h
          rw [← h]; exact hs

/-- A successful `nameName` leaves a non-empty raw name with an accepted local
name. -/
theorem nameName_ok_inv (s : GoString) (n n1 : name) (h : nameName s n = (n1, none)) :
    n1 = { n with n := s } ∧ checkName (localName s) = none ∧ s ≠ [] := by
  rcases hc : checkName (localName s) with _ | e
  · rw [nameName_of_ok s n hc] at h
    simp only [Prod.mk.injEq, and_true] at h
    refine ⟨h.symm, rfl, ?_⟩
    intro e
    subst e
    exact absurd hc (by decide)
  · rw [nameName_of_err s n e hc] at h
    simp at h

/-- The raw name after a successful standard step: non-empty when the step
assigns it, untouched otherwise. -/
theorem Step.setter_ok (t : Step) (st st1 : name) (h : t.setter st = (st1, none)) :
    (t.setsName = true → st1.n ≠ []) ∧ (t.setsName = false → st1.n = st.n) := by
  cases t with
  | fromSchema m => exact ⟨fun _ => nameSchema_ok_ne_nil m st st1 h, fun c => by simp [Step.setsName] at c⟩
  | fromName s =>
    obtain ⟨h1, _, h3⟩ := nameName_ok_inv s st st1 h
    exact ⟨fun _ => by rw [h1]; exact h3, fun c => by simp [Step.setsName] at c⟩
  | fromNamespace x =>
    simp only [Step.setter, nameNamespace, Prod.mk.injEq, and_true] at h
    exact ⟨fun c => by simp [Step.setsName] at c, fun _ => by rw [← h]⟩
  | fromEnclosingNamespace x =>
    simp only [Step.setter, nameEnclosingNamespace, Prod.mk.injEq, and_true] at h
    exact ⟨fun c => by simp [Step.setsName] at c, fun _ => by rw [← h]⟩

theorem applySetters_cons_ok (step : nameSetter) (rest : List nameSetter) (st raw : name)
    (h : applySetters (step :: rest) st = (raw, none)) :
    ∃ st1, step st = (st1, none) ∧ applySetters rest st1 = (raw, none) := by
  simp only [applySetters] at h
  rcases hstep : step st with ⟨st1, _ | e⟩
  · rw [hstep] at h
    exact ⟨st1, rfl, h⟩
  · rw [hstep] at h
    simp at h

/-- After a successful run of standard steps the raw name is non-empty if it
was so before or if a step assigned it. -/
theorem applySetters_ne_nil (steps : List Step) (st raw : name)
    (h : applySetters (steps.map Step.setter) st = (raw, none))
    (hn : st.n ≠ [] ∨ ∃ t ∈ steps, t.setsName = true) : raw.n ≠ [] := by
  induction steps generalizing st with
  | nil =>
    simp only [List.map_nil, applySetters, Prod.mk.injEq, and_true] at h
    rcases hn with hn | ⟨t, ht, _⟩
    · rw [← h]; exact hn
    · simp at ht
  | cons t rest ih =>
    rw [List.map_cons] at h
    obtain ⟨st1, hstep, hrest⟩ := applySetters_cons_ok _ _ _ _ h
    have hok := Step.setter_ok t st st1 hstep
    apply ih st1 hrest
    by_cases hset : t.setsName = true
    · exact Or.inl (hok.1 hset)
    · have hset1 : t.setsName = false := by simpa using hset
      rcases hn with hn | ⟨u, hu, hus⟩
      · left; rw [hok.2 hset1]; exact hn
      · rcases List.mem_cons.1 hu with e | hmem
        · subst e; exact absurd hus hset
        · exact Or.inr ⟨u, hmem, hus⟩

/-- Steps that do not assign the raw name leave it as it was. -/
theorem applySetters_n_eq (steps : List Step) (st raw : name)
    (h : applySetters (steps.map Step.setter) st = (raw, none))
    (hn : ∀ t ∈ steps, t.setsName = false) : raw.n = st.n := by
  induction steps generalizing st with
  | nil =>
    simp only [List.map_nil, applySetters, Prod.mk.injEq, and_true] at h
    rw [h]
  | cons t rest ih =>
    rw [List.map_cons] at h
    obtain ⟨st1, hstep, hrest⟩ := applySetters_cons_ok _ _ _ _ h
    have hok := Step.setter_ok t st st1 hstep
    rw [ih st1 hrest (fun u hu => hn u (List.mem_cons_of_mem _ hu)),
      hok.2 (hn t (List.mem_cons_self _ _))]

theorem newName_some_inv (setters : List nameSetter) (q : name)
    (h : newName setters = (some q, none)) :
    ∃ raw, applySetters setters ⟨[], [], []⟩ = (raw, none) ∧
      q = { raw with n := qualify raw.n raw.ns raw.ens } := by
  obtain ⟨raw, hraw⟩ := newName_ok_inv setters (by rw [h])
  refine ⟨raw, hraw, ?_⟩
  rw [newName_of_ok setters raw hraw] at h
  simp only [Prod.mk.injEq, Option.some.injEq, and_true] at h
  exact h.symm

theorem qualify_ne_nil (r ns ens : GoString) (h : r ≠ []) : qualify r ns ens ≠ [] := by
  unfold qualify
  split_ifs <;> simp [h]

theorem localName_qualify (r ns ens : GoString) :
    localName (qualify r ns ens) = localName r := by
  unfold qualify
  by_cases hd : dot ∈ r
  · rw [if_pos hd]
  · rw [if_neg hd]
    split_ifs
    · rw [List.append_assoc, List.singleton_append, localName_append _ r hd,
        localName_of_not_mem r hd]
    · rw [List.append_assoc, List.singleton_append, localName_append _ r hd,
        localName_of_not_mem r hd]
    · rfl

theorem namespace_append (p l ns ens : GoString) (h : dot ∉ l) :
    name.namespace_ ⟨p ++ dot :: l, ns, ens⟩ = p := by
  unfold name.namespace_ strings.LastIndex
  simp only []
  rw [LastIndexByte_append p l dot h]
  rw [if_neg (by omega)]
  simp [slice]

theorem namespace_of_not_mem (s ns ens : GoString) (h : dot ∉ s) :
    name.namespace_ ⟨s, ns, ens⟩ = [] := by
  unfold name.namespace_ strings.LastIndex
  simp only []
  rw [LastIndexByte_not_mem s dot h]
  simp

/-! ## Lemmas on the derived namespace and on re-resolution -/

/-- The last index of a byte is `-1` or an offset inside the string. -/
theorem LastIndexByte_lt (s : GoString) (c : Byte) :
    strings.LastIndexByte s c < (s.length : Int) := by
  induction s with
  | nil => simp [strings.LastIndexByte]
  | cons b rest ih =>
    unfold strings.LastIndexByte
    simp only [List.length_cons, Nat.cast_add, Nat.cast_one]
    split_ifs <;> omega

theorem LastIndexByte_eq_neg_one_iff (s : GoString) (c : Byte) :
    strings.LastIndexByte s c = -1 ↔ c ∉ s := by
  constructor
  · intro h hmem
    obtain ⟨p, l, hs⟩ : ∃ p l, s = p ++ c :: l := List.append_of_mem hmem
    clear hmem
    induction p generalizing s with
    | nil =>
      subst hs
      have hge := LastIndexByte_ge l c
      unfold strings.LastIndexByte at h
      simp only [List.nil_append] at h
      split_ifs at h
      omega
    | cons b rest ih =>
      subst hs
      have hge := LastIndexByte_ge (rest ++ c :: l) c
      rw [List.cons_append] at h
      unfold strings.LastIndexByte at h
      by_cases h1 : strings.LastIndexByte (rest ++ c :: l) c = -1
      · exact ih _ h1 rfl
      · rw [if_neg h1] at h
        omega
  · exact LastIndexByte_not_mem s c

/-- The outcome of `newName` on a sequence whose raw name is last assigned by a
`nameName` step. -/
theorem newName_last_fromName (pre post : List Step) (s : GoString) (q : name)
    (hpost : ∀ t ∈ post, t.setsName = false)
    (h : newName ((pre ++ Step.fromName s :: post).map Step.setter) = (some q, none)) :
    ∃ raw : name, raw.n = s ∧ checkName (localName s) = none ∧
      q = { raw with n := qualify raw.n raw.ns raw.ens } := by
  obtain ⟨raw, hraw, hq⟩ := newName_some_inv _ q h
  rw [List.map_append, applySetters_append] at hraw
  rcases hpre : applySetters (pre.map Step.setter) ⟨[], [], []⟩ with ⟨st, _ | e⟩
  · rw [hpre, List.map_cons] at hraw
    obtain ⟨st1, hstep, hrest⟩ := applySetters_cons_ok _ _ _ _ hraw
    obtain ⟨h1, h2, _⟩ := nameName_ok_inv s st st1 hstep
    refine ⟨raw, ?_, h2, hq⟩
    rw [applySetters_n_eq post st1 raw hrest hpost, h1]
  · rw [hpre] at hraw
    simp at hraw

theorem newName_single_nameName (s : GoString) (h : checkName (localName s) = none) :
    newName [nameName s] = (some ⟨s, [], []⟩, none) := by
  have hraw : applySetters [nameName s] ⟨[], [], []⟩ = (⟨s, [], []⟩, none) := by
    simp only [applySetters, nameName_of_ok _ _ h]
  rw [newName_of_ok _ _ hraw]
  simp [qualify]

/-- The outcome of the three steps in the order name, namespace, enclosing
namespace. -/
theorem newName_three (s ns ens : GoString) :
    newName [nameName s, nameNamespace ns, nameEnclosingNamespace ens] =
      match checkName (localName s) with
      | none => (some ⟨qualify s ns ens, ns, ens⟩, none)
      | some e => (none, some e) := by
  rcases hc : checkName (localName s) with _ | e
  · have hraw : applySetters [nameName s, nameNamespace ns, nameEnclosingNamespace ens]
        ⟨[], [], []⟩ = (⟨s, ns, ens⟩, none) := by
      simp only [applySetters, nameName_of_ok _ _ hc, nameNamespace, nameEnclosingNamespace]
    rw [newName_of_ok _ _ hraw]
  · have hraw : applySetters [nameName s, nameNamespace ns, nameEnclosingNamespace ens]
        ⟨[], [], []⟩ = (⟨[], [], []⟩, some e) := by
      simp only [applySetters, nameName_of_err _ _ e hc]
    rw [newName_of_err _ _ e hraw]

/-! ## Lemmas on the errors of the steps -/

theorem checkName_cases (s : GoString) :
    checkName s = none ∨
    checkName s = some (.ErrInvalidName "not be empty") ∨
    checkName s = some (.ErrInvalidName "start with [A-Za-z_]") ∨
    checkName s = some (.ErrInvalidName
      "have second and remaining characters contain only [A-Za-z0-9_]") := by
  cases s with
  | nil => exact Or.inr (Or.inl checkName_nil)
  | cons b rest =>
    rw [checkName_cons]
    split_ifs
    · exact Or.inr (Or.inr (Or.inl rfl))
    · exact Or.inr (Or.inr (Or.inr rfl))
    · exact Or.inl rfl

/-- A string with a dot fails one of the two character tests of `checkName`. -/
theorem checkName_of_dot_mem (s : GoString) (h : dot ∈ s) :
    checkName s = some (.ErrInvalidName "start with [A-Za-z_]") ∨
    checkName s = some (.ErrInvalidName
      "have second and remaining characters contain only [A-Za-z0-9_]") := by
  cases s with
  | nil => simp at h
  | cons b rest =>
    rw [checkName_cons]
    by_cases c1 : isNameStart b = false
    · rw [if_pos c1]; exact Or.inl rfl
    · rw [if_neg c1]
      have hb : dot ≠ b := by
        intro e
        rw [← e] at c1
        exact c1 (by decide)
      have hrest : dot ∈ rest := by
        rcases List.mem_cons.1 h with e | e
        · exact absurd e hb
        · exact e
      have c2 : rest.all isNameRest = false := by
        rw [← Bool.not_eq_true, List.all_eq_true]
        intro hall
        exact absurd (hall dot hrest) (by decide)
      rw [if_pos c2]; exact Or.inr rfl

theorem nameName_snd (s : GoString) (n : name) :
    (nameName s n).2 = checkName (localName s) := by
  rcases hc : checkName (localName s) with _ | e
  · rw [nameName_of_ok s n hc]
  · rw [nameName_of_err s n e hc]

/-- The errors of `nameSchema` are the three made by `fmt.Errorf`. -/
theorem nameSchema_err_inv (m : Schema) (n n1 : name) (e : GoError)
    (h : nameSchema m n = (n1, some e)) :
    e = .errorString "ought to have name key" ∨
    e = .errorString "name ought to be non-empty string: *goavro.name" ∨
    e = .errorString "namespace ought to be a string: *goavro.name" := by
  rcases hname : m.lookup (lit "name") with _ | v
  · rw [nameSchema_no_name m n hname] at h
    simp only [Prod.mk.injEq, Option.some.injEq] at h
    exact Or.inl h.2.symm
  · by_cases hv : ∀ s, v = .string s → s = []
    · rw [nameSchema_bad_name m n v hname hv] at h
      simp only [Prod.mk.injEq, Option.some.injEq] at h
      exact Or.inr (Or.inl h.2.symm)
    · push_neg at hv
      obtain ⟨s, hvs, hs⟩ := hv
      subst hvs
      rcases hns : m.lookup (lit "namespace") with _ | w
      · rw [nameSchema_no_namespace m n s hname hs hns] at h
        simp at h
      · by_cases hw : ∀ t, w ≠ .string t
        · rw [nameSchema_bad_namespace m n s w hname hs hns hw] at h
          simp only [Prod.mk.injEq, Option.some.injEq] at h
          exact Or.inr (Or.inr h.2.symm)
        · push_neg at hw
          obtain ⟨t, hwt⟩ := hw
          subst hwt
          rw [nameSchema_namespace m n s t hname hs hns] at h
          simp at h

/-- A failing run of the loop has a step that returned the error. -/
theorem applySetters_err_inv (setters : List nameSetter) (st st1 : name) (e : GoError)
    (h : applySetters setters st = (st1, some e)) :
    ∃ step ∈ setters, ∃ st2, step st2 = (st1, some e) := by
  induction setters generalizing st with
  | nil => simp [applySetters] at h
  | cons step rest ih =>
    simp only [applySetters] at h
    rcases hstep : step st with ⟨st2, _ | e1⟩
    · rw [hstep] at h
      obtain ⟨step1, hmem, st3, h3⟩ := ih st2 h
      exact ⟨step1, List.mem_cons_of_mem _ hmem, st3, h3⟩
    · rw [hstep] at h
      simp only [Prod.mk.injEq, Option.some.injEq] at h
      obtain ⟨h1, h2⟩ := h
      subst h1 h2
      exact ⟨step, List.mem_cons_self _ _, st, hstep⟩

theorem newName_err_inv (setters : List nameSetter) (e : GoError)
    (h : (newName setters).2 = some e) :
    ∃ st, applySetters setters ⟨[], [], []⟩ = (st, some e) := by
  rcases hr : applySetters setters ⟨[], [], []⟩ with ⟨st, _ | e1⟩
  · rw [newName_of_ok setters st hr] at h
    simp at h
  · rw [newName_of_err setters st e1 hr] at h
    simp only [Option.some.injEq] at h
    subst h
    exact ⟨st, rfl⟩

/-- The outcome of `newName` on steps that leave the three given fields or the
error of the name. -/
theorem newName_of_fields (l : List nameSetter) (s ns ens : GoString)
    (hok : checkName (localName s) = none →
      applySetters l ⟨[], [], []⟩ = (⟨s, ns, ens⟩, none))
    (herr : ∀ e, checkName (localName s) = some e →
      ∃ st, applySetters l ⟨[], [], []⟩ = (st, some e)) :
    newName l = newName [nameName s, nameNamespace ns, nameEnclosingNamespace ens] := by
  rw [newName_three]
  rcases hc : checkName (localName s) with _ | e
  · rw [newName_of_ok _ _ (hok hc)]
  · obtain ⟨st, hst⟩ := herr e hc
    rw [newName_of_err _ _ e hst]

/-- The lists that are permutations of a list of three. -/
theorem perm_three {α : Type} (a b c : α) (l : List α) (h : l.Perm [a, b, c]) :
    l = [a, b, c] ∨ l = [b, a, c] ∨ l = [c, b, a] ∨ l = [b, c, a] ∨ l = [c, a, b] ∨
      l = [a, c, b] := by
  have h1 := List.mem_permutations.2 h
  have h2 : [a, b, c].permutations =
      [[a, b, c], [b, a, c], [c, b, a], [b, c, a], [c, a, b], [a, c, b]] := by
    simp [List.permutations, List.permutationsAux, List.permutationsAux.rec]
  rw [h2] at h1
  simpa using h1

/-! ## Lemmas on the empty qualified string and on the first failing step -/

theorem qualify_eq_nil_iff (r ns ens : GoString) :
    qualify r ns ens = [] ↔ r = [] ∧ ns = [] ∧ ens = [] := by
  unfold qualify
  constructor
  · intro h
    split_ifs at h with h1 h2 h3
    · subst h; simp at h1
    · simp at h
    · simp at h
    · subst h
      exact ⟨rfl, not_not.1 h2, not_not.1 h3⟩
  · rintro ⟨h1, h2, h3⟩
    subst h1 h2 h3
    simp

/-- The error of `nameSchema` with the condition on the schema that produces
it. -/
theorem nameSchema_err_cases (m : Schema) (n n1 : name) (e : GoError)
    (h : nameSchema m n = (n1, some e)) :
    (m.lookup (lit "name") = none ∧ e = .errorString "ought to have name key") ∨
    (∃ v, m.lookup (lit "name") = some v ∧ (∀ s, v = .string s → s = []) ∧
      e = .errorString "name ought to be non-empty string: *goavro.name") ∨
    (∃ s v, m.lookup (lit "name") = some (.string s) ∧ s ≠ [] ∧
      m.lookup (lit "namespace") = some v ∧ (∀ t, v ≠ .string t) ∧
      e = .errorString "namespace ought to be a string: *goavro.name") := by
  rcases hname : m.lookup (lit "name") with _ | v
  · rw [nameSchema_no_name m n hname] at h
    simp only [Prod.mk.injEq, Option.some.injEq] at h
    exact Or.inl ⟨rfl, h.2.symm⟩
  · by_cases hv : ∀ s, v = .string s → s = []
    · rw [nameSchema_bad_name m n v hname hv] at h
      simp only [Prod.mk.injEq, Option.some.injEq] at h
      exact Or.inr (Or.inl ⟨v, rfl, hv, h.2.symm⟩)
    · push_neg at hv
      obtain ⟨s, hvs, hs⟩ := hv
      subst hvs
      rcases hns : m.lookup (lit "namespace") with _ | w
      · rw [nameSchema_no_namespace m n s hname hs hns] at h
        simp at h
      · by_cases hw : ∀ t, w ≠ .string t
        · rw [nameSchema_bad_namespace m n s w hname hs hns hw] at h
          simp only [Prod.mk.injEq, Option.some.injEq] at h
          exact Or.inr (Or.inr ⟨s, w, rfl, hs, rfl, hw, h.2.symm⟩)
        · push_neg at hw
          obtain ⟨t, hwt⟩ := hw
          subst hwt
          rw [nameSchema_namespace m n s t hname hs hns] at h
          simp at h

/-- A failing run of standard steps splits at its first failing step: the steps
before it all succeed and it returns the error. -/
theorem applySetters_steps_first_failure (steps : List Step) (st0 st1 : name) (e : GoError)
    (h : applySetters (steps.map Step.setter) st0 = (st1, some e)) :
    ∃ pre t post st, steps = pre ++ t :: post ∧
      StepsOk st0 (pre.map Step.setter) st ∧ t.setter st = (st1, some e) := by
  induction steps generalizing st0 with
  | nil => simp [applySetters] at h
  | cons t rest ih =>
    rw [List.map_cons] at h
    simp only [applySetters] at h
    rcases hstep : t.setter st0 with ⟨st2, _ | e1⟩
    · rw [hstep] at h
      obtain ⟨pre, t1, post, st, hs, hok, hfail⟩ := ih st2 h
      refine ⟨t :: pre, t1, post, st, by rw [hs]; rfl, ?_, hfail⟩
      rw [List.map_cons]
      exact StepsOk.cons hstep hok
    · rw [hstep] at h
      simp only [Prod.mk.injEq, Option.some.injEq] at h
      obtain ⟨h1, h2⟩ := h
      subst h1 h2
      exact ⟨[], t, rest, st0, rfl, StepsOk.nil st0, hstep⟩

/-! ## The claims -/

/-- C1: on every successful `newName` call the qualified string of the returned
name is the qualification algorithm of the specification applied to the raw
name, namespace and enclosing namespace the steps left; the namespace fields
are returned as left.  A raw name with a dot is kept as it is, otherwise a
non-empty namespace is prepended, otherwise a non-empty enclosing namespace,
otherwise nothing. -/
theorem newName_qualification (setters : List nameSetter)
    (h : (newName setters).2 = none) :
    ∃ raw q : name, StepsOk ⟨[], [], []⟩ setters raw ∧ newName setters = (some q, none) ∧
      q.String = qualify raw.n raw.ns raw.ens ∧ q.ns = raw.ns ∧ q.ens = raw.ens ∧
      (dot ∈ raw.n → q.String = raw.n) ∧
      (dot ∉ raw.n → raw.ns ≠ [] → q.String = raw.ns ++ lit "." ++ raw.n) ∧
      (dot ∉ raw.n → raw.ns = [] → raw.ens ≠ [] → q.String = raw.ens ++ lit "." ++ raw.n) ∧
      (dot ∉ raw.n → raw.ns = [] → raw.ens = [] → q.String = raw.n) := by
  obtain ⟨raw, hraw⟩ := newName_ok_inv setters h
  refine ⟨raw, { raw with n := qualify raw.n raw.ns raw.ens }, (StepsOk_iff _ _ _).2 hraw,
    newName_of_ok setters raw hraw, rfl, rfl, rfl, ?_, ?_, ?_, ?_⟩
  · intro hd
    simp [name.String, qualify_eq, hd]
  · intro hd hns
    simp [name.String, qualify_eq, hd, hns]
  · intro hd hns hens
    simp [name.String, qualify_eq, hd, hns, hens]
  · intro hd hns hens
    simp [name.String, qualify_eq, hd, hns, hens]

/-- C1 at the three scenarios of the specification: `Foo` with namespace
`com.example`, `Foo` with an empty namespace and enclosing namespace
`com.example`, and `com.example.Foo` with namespace `ignored.ns`, all resolve
to `com.example.Foo`. -/
theorem newName_qualification_witness :
    ((newName [nameName (lit "Foo"), nameNamespace (lit "com.example")]).2 = none ∧
      ∃ raw q : name,
        StepsOk ⟨[], [], []⟩ [nameName (lit "Foo"), nameNamespace (lit "com.example")] raw ∧
        newName [nameName (lit "Foo"), nameNamespace (lit "com.example")] = (some q, none) ∧
        q.String = qualify raw.n raw.ns raw.ens ∧ q.ns = raw.ns ∧ q.ens = raw.ens ∧
        (dot ∈ raw.n → q.String = raw.n) ∧
        (dot ∉ raw.n → raw.ns ≠ [] → q.String = raw.ns ++ lit "." ++ raw.n) ∧
        (dot ∉ raw.n → raw.ns = [] → raw.ens ≠ [] → q.String = raw.ens ++ lit "." ++ raw.n) ∧
        (dot ∉ raw.n → raw.ns = [] → raw.ens = [] → q.String = raw.n)) ∧
    newName [nameName (lit "Foo"), nameNamespace (lit "com.example")] =
      (some ⟨lit "com.example.Foo", lit "com.example", []⟩, none) ∧
    newName [nameName (lit "Foo"), nameNamespace (lit ""),
        nameEnclosingNamespace (lit "com.example")] =
      (some ⟨lit "com.example.Foo", [], lit "com.example"⟩, none) ∧
    newName [nameName (lit "com.example.Foo"), nameNamespace (lit "ignored.ns")] =
      (some ⟨lit "com.example.Foo", lit "ignored.ns", []⟩, none) :=
  ⟨⟨by decide, newName_qualification _ (by decide)⟩, by decide, by decide, by decide⟩

/-- C2: `checkName` accepts a string exactly when it matches
`^[A-Za-z_][A-Za-z0-9_]*$`, that is when it is non-empty, its first character
is an ASCII letter or `_` and every later character is an ASCII letter, an
ASCII digit or `_`. -/
theorem checkName_accepts_iff (s : GoString) :
    (checkName s = none ↔ matchesNamePattern s = true) ∧
    (checkName s = none ↔
      ∃ b rest, s = b :: rest ∧ isNameStart b = true ∧ ∀ c ∈ rest, isNameRest c = true) := by
  refine ⟨checkName_eq_none_iff s, ?_⟩
  rw [checkName_eq_none_iff]
  cases s with
  | nil => simp [matchesNamePattern]
  | cons b rest =>
    simp only [matchesNamePattern, Bool.and_eq_true, List.all_eq_true]
    constructor
    · intro h
      exact ⟨b, rest, rfl, h.1, h.2⟩
    · rintro ⟨b1, rest1, e, h1, h2⟩
      obtain ⟨e1, e2⟩ := List.cons.inj e
      subst e1 e2
      exact ⟨h1, h2⟩

/-- C3: the error of `checkName` is an `ErrInvalidName` whose message is the
reason of the first violated rule: "not be empty" exactly for the empty string,
"start with [A-Za-z_]" exactly for a non-empty string whose first character is
outside `[A-Za-z_]` (whatever the later characters are), and the message on the
remaining characters exactly for a string with a legal first character and a
later character outside `[A-Za-z0-9_]`; there is no other outcome. -/
theorem checkName_reason (s : GoString) :
    (checkName s = some (.ErrInvalidName "not be empty") ↔ s = []) ∧
    (checkName s = some (.ErrInvalidName "start with [A-Za-z_]") ↔
      ∃ b rest, s = b :: rest ∧ isNameStart b = false) ∧
    (checkName s = some (.ErrInvalidName
        "have second and remaining characters contain only [A-Za-z0-9_]") ↔
      ∃ b rest, s = b :: rest ∧ isNameStart b = true ∧ ∃ c ∈ rest, isNameRest c = false) ∧
    (checkName s = none ∨
      checkName s = some (.ErrInvalidName "not be empty") ∨
      checkName s = some (.ErrInvalidName "start with [A-Za-z_]") ∨
      checkName s = some (.ErrInvalidName
        "have second and remaining characters contain only [A-Za-z0-9_]")) := by
  cases s with
  | nil => simp [checkName_nil]
  | cons b rest =>
    rw [checkName_cons]
    by_cases c1 : isNameStart b = false
    · simp [c1]
    · by_cases c2 : rest.all isNameRest = false
      · rw [if_neg c1, if_pos c2]
        simp only [Bool.not_eq_false] at c1
        have c3 : ∃ c ∈ rest, isNameRest c = false := by
          rw [← Bool.not_eq_true, List.all_eq_true] at c2
          push_neg at c2
          obtain ⟨c, hc, hn⟩ := c2
          exact ⟨c, hc, by simpa using hn⟩
        have c4 : ∃ b1 rest1, b :: rest = b1 :: rest1 ∧ isNameStart b1 = true ∧
            ∃ c ∈ rest1, isNameRest c = false := ⟨b, rest, rfl, c1, c3⟩
        have c5 : ¬ ∃ b1 rest1, b :: rest = b1 :: rest1 ∧ isNameStart b1 = false := by
          rintro ⟨b1, rest1, e, h1⟩
          obtain ⟨e1, e2⟩ := List.cons.inj e
          subst e1 e2
          rw [c1] at h1
          exact absurd h1 (by simp)
        simp only [c4, c5]
        simp
      · rw [if_neg c1, if_neg c2]
        simp only [Bool.not_eq_false] at c1 c2
        have c3 : ¬ ∃ c ∈ rest, isNameRest c = false := by
          rintro ⟨c, hc, hn⟩
          rw [List.all_eq_true] at c2
          rw [c2 c hc] at hn
          exact absurd hn (by simp)
        have c4 : ¬ ∃ b1 rest1, b :: rest = b1 :: rest1 ∧ isNameStart b1 = true ∧
            ∃ c ∈ rest1, isNameRest c = false := by
          rintro ⟨b1, rest1, e, _, h2⟩
          obtain ⟨e1, e2⟩ := List.cons.inj e
          subst e1 e2
          exact c3 h2
        have c5 : ¬ ∃ b1 rest1, b :: rest = b1 :: rest1 ∧ isNameStart b1 = false := by
          rintro ⟨b1, rest1, e, h1⟩
          obtain ⟨e1, e2⟩ := List.cons.inj e
          subst e1 e2
          rw [c1] at h1
          exact absurd h1 (by simp)
        simp only [c4, c5]
        simp

/-- C3 at the inputs of the specification: the empty string, `1abc` and
`ab$c`. -/
theorem checkName_reason_witness :
    checkName (lit "") = some (.ErrInvalidName "not be empty") ∧
    checkName (lit "1abc") = some (.ErrInvalidName "start with [A-Za-z_]") ∧
    checkName (lit "ab$c") = some (.ErrInvalidName
      "have second and remaining characters contain only [A-Za-z0-9_]") :=
  ⟨(checkName_reason (lit "")).1.2 (by decide),
   (checkName_reason (lit "1abc")).2.1.2 ⟨49, lit "abc", by decide, by decide⟩,
   (checkName_reason (lit "ab$c")).2.2.1.2
     ⟨97, lit "b$c", by decide, by decide, 36, by decide, by decide⟩⟩

/-- C4: `nameName s` succeeds exactly when `checkName` accepts the local name of
`s`, the segment after its final dot (all of `s` when it has none); on success
it stores all of `s` as the raw name and on failure it returns the error of
`checkName` on that segment.  So for any prefix `p` and any `L` accepted by
`checkName`, building from `p + "." + L` with any namespace and enclosing
namespace succeeds with the qualified string `p + "." + L`. -/
theorem nameName_validates_local_name (s p L ns ens : GoString) (n : name) :
    ((nameName s n).2 = none ↔ checkName (localName s) = none) ∧
    (checkName (localName s) = none → nameName s n = ({ n with n := s }, none)) ∧
    (∀ e, checkName (localName s) = some e → nameName s n = (n, some e)) ∧
    (dot ∉ s → localName s = s) ∧
    (dot ∉ L → localName (p ++ lit "." ++ L) = L) ∧
    (checkName L = none →
      nameName (p ++ lit "." ++ L) n = ({ n with n := p ++ lit "." ++ L }, none) ∧
      newName [nameName (p ++ lit "." ++ L), nameNamespace ns, nameEnclosingNamespace ens] =
        (some ⟨p ++ lit "." ++ L, ns, ens⟩, none)) := by
  have hloc : dot ∉ L → localName (p ++ lit "." ++ L) = L := by
    intro hL
    rw [lit_dot, List.append_assoc]
    exact localName_append p L hL
  refine ⟨?_, nameName_of_ok s n, fun e he => nameName_of_err s n e he,
    localName_of_not_mem s, hloc, ?_⟩
  · rcases hc : checkName (localName s) with _ | e
    · rw [nameName_of_ok s n hc]
    · rw [nameName_of_err s n e hc]
  · intro hL
    have hdL := dot_not_mem_of_checkName L hL
    have hok : checkName (localName (p ++ lit "." ++ L)) = none := by rw [hloc hdL]; exact hL
    refine ⟨nameName_of_ok _ n hok, ?_⟩
    have hraw : applySetters
        [nameName (p ++ lit "." ++ L), nameNamespace ns, nameEnclosingNamespace ens]
        ⟨[], [], []⟩ = (⟨p ++ lit "." ++ L, ns, ens⟩, none) := by
      simp only [applySetters, nameName_of_ok _ _ hok, nameNamespace, nameEnclosingNamespace]
    rw [newName_of_ok _ _ hraw]
    have hd : dot ∈ p ++ lit "." ++ L := by rw [lit_dot]; simp
    unfold qualify
    rw [if_pos hd]

/-- C4 at a prefix with characters no name may hold: `1 $-.Foo` is accepted
whole, and the namespace and enclosing namespace do not enter the qualified
string. -/
theorem nameName_validates_local_name_witness :
    checkName (lit "Foo") = none ∧
    nameName (lit "1 $-" ++ lit "." ++ lit "Foo") ⟨[], [], []⟩ =
      (⟨lit "1 $-" ++ lit "." ++ lit "Foo", [], []⟩, none) ∧
    newName [nameName (lit "1 $-" ++ lit "." ++ lit "Foo"), nameNamespace (lit "a"),
        nameEnclosingNamespace (lit "b")] =
      (some ⟨lit "1 $-" ++ lit "." ++ lit "Foo", lit "a", lit "b"⟩, none) :=
  ⟨by decide,
   (nameName_validates_local_name [] (lit "1 $-") (lit "Foo") (lit "a") (lit "b")
      ⟨[], [], []⟩).2.2.2.2.2 (by decide)⟩

/-- C5: when a step fails after the steps before it succeeded, `newName`
returns no name and the error of that step, whatever steps follow; when every
step succeeds, `newName` returns a name and no error; and every sequence of
steps is in one of these two cases. -/
theorem newName_fail_fast (setters : List nameSetter) :
    (∀ pre step post st st1 e, setters = pre ++ step :: post →
      StepsOk ⟨[], [], []⟩ pre st → step st = (st1, some e) →
      newName setters = (none, some e) ∧
      ∀ post1, newName (pre ++ step :: post1) = (none, some e)) ∧
    (∀ st, StepsOk ⟨[], [], []⟩ setters st → ∃ q, newName setters = (some q, none)) ∧
    ((∃ st, StepsOk ⟨[], [], []⟩ setters st) ∨
      ∃ pre step post st st1 e, setters = pre ++ step :: post ∧
        StepsOk ⟨[], [], []⟩ pre st ∧ step st = (st1, some e)) := by
  refine ⟨?_, ?_, StepsOk_or_first_failure setters _⟩
  · intro pre step post st st1 e hs hpre hstep
    subst hs
    exact ⟨newName_of_err _ st1 e (applySetters_first_failure pre post step _ st st1 e hpre hstep),
      fun post1 =>
        newName_of_err _ st1 e (applySetters_first_failure pre post1 step _ st st1 e hpre hstep)⟩
  · intro st hok
    exact ⟨_, newName_of_ok setters st ((StepsOk_iff _ _ _).1 hok)⟩

/-- C5 at a sequence whose second step is the first to fail: the error is the
one of `nameName "1abc"`, not the one of the later `nameName ""`. -/
theorem newName_fail_fast_witness :
    newName [nameNamespace (lit "a"), nameName (lit "1abc"), nameName (lit "")] =
      (none, some (.ErrInvalidName "start with [A-Za-z_]")) :=
  ((newName_fail_fast
      [nameNamespace (lit "a"), nameName (lit "1abc"), nameName (lit "")]).1
    [nameNamespace (lit "a")] (nameName (lit "1abc")) [nameName (lit "")]
    ⟨[], lit "a", []⟩ ⟨[], lit "a", []⟩ (.ErrInvalidName "start with [A-Za-z_]") rfl
    (StepsOk.cons rfl (StepsOk.nil _)) (by decide)).1

/-- C6, as stated, fails: `newName` with no step, or with only empty namespace
steps, succeeds and returns a name whose qualified string is empty. -/
theorem newName_empty_qualified :
    (∃ q, newName [] = (some q, none) ∧ q.String = []) ∧
    (∃ q, newName [nameNamespace (lit ""), nameEnclosingNamespace (lit "")] = (some q, none) ∧
      q.String = []) :=
  ⟨⟨⟨[], [], []⟩, by decide, by decide⟩, ⟨⟨[], [], []⟩, by decide, by decide⟩⟩

/-- C6, amended: for every sequence of steps on which `newName` succeeds, the
qualified string of the returned name is empty exactly when the steps left the
raw name, the namespace and the enclosing namespace all empty; in every other
case it is non-empty. -/
theorem newName_qualified_empty_iff (setters : List nameSetter) (q : name)
    (h : newName setters = (some q, none)) :
    ∃ raw, StepsOk ⟨[], [], []⟩ setters raw ∧
      (q.String = [] ↔ raw.n = [] ∧ raw.ns = [] ∧ raw.ens = []) ∧
      (raw.n ≠ [] ∨ raw.ns ≠ [] ∨ raw.ens ≠ [] → q.String ≠ []) := by
  obtain ⟨raw, hraw, hq⟩ := newName_some_inv _ q h
  have hiff : q.String = [] ↔ raw.n = [] ∧ raw.ns = [] ∧ raw.ens = [] := by
    rw [hq]
    exact qualify_eq_nil_iff raw.n raw.ns raw.ens
  refine ⟨raw, (StepsOk_iff _ _ _).2 hraw, hiff, ?_⟩
  intro hne hempty
  obtain ⟨h1, h2, h3⟩ := hiff.1 hempty
  rcases hne with c | c | c
  · exact c h1
  · exact c h2
  · exact c h3

/-- C6, amended, at the single step `nameNamespace "a"`, which sets no name:
the qualified string is `a.`, not empty. -/
theorem newName_qualified_empty_iff_witness :
    newName [nameNamespace (lit "a")] = (some ⟨lit "a.", lit "a", []⟩, none) ∧
    ∃ raw, StepsOk ⟨[], [], []⟩ [nameNamespace (lit "a")] raw ∧
      (name.String ⟨lit "a.", lit "a", []⟩ = [] ↔ raw.n = [] ∧ raw.ns = [] ∧ raw.ens = []) ∧
      (raw.n ≠ [] ∨ raw.ns ≠ [] ∨ raw.ens ≠ [] →
        name.String ⟨lit "a.", lit "a", []⟩ ≠ []) :=
  ⟨by decide,
   newName_qualified_empty_iff [nameNamespace (lit "a")] ⟨lit "a.", lit "a", []⟩ (by decide)⟩

/-- On standard steps that hold a `nameSchema` or `nameName` step the qualified
string of a successful `newName` is non-empty. -/
theorem newName_ne_nil_of_name_step (steps : List Step) (q : name)
    (hname : ∃ t ∈ steps, t.setsName = true)
    (h : newName (steps.map Step.setter) = (some q, none)) :
    q.String ≠ [] := by
  obtain ⟨raw, hraw, hq⟩ := newName_some_inv _ q h
  have hne := applySetters_ne_nil steps _ raw hraw (Or.inr hname)
  rw [hq]
  exact qualify_ne_nil raw.n raw.ns raw.ens hne

/-- C7, as stated, fails: `nameSchema` copies the name of a schema without
calling `checkName`, so the schemas named `1abc` and `ab$c` are accepted and
the local name of the result is one `checkName` rejects; and `newName` with no
step returns the empty name, which `checkName` rejects too. -/
theorem newName_unvalidated :
    newName [nameSchema [(lit "name", Value.string (lit "1abc"))]] =
      (some ⟨lit "1abc", [], []⟩, none) ∧
    checkName (localName (name.String ⟨lit "1abc", [], []⟩)) =
      some (.ErrInvalidName "start with [A-Za-z_]") ∧
    newName [nameSchema [(lit "name", Value.string (lit "ab$c"))]] =
      (some ⟨lit "ab$c", [], []⟩, none) ∧
    checkName (localName (name.String ⟨lit "ab$c", [], []⟩)) =
      some (.ErrInvalidName
        "have second and remaining characters contain only [A-Za-z0-9_]") ∧
    newName [] = (some ⟨[], [], []⟩, none) ∧
    checkName (localName (name.String ⟨[], [], []⟩)) =
      some (.ErrInvalidName "not be empty") :=
  ⟨by decide, by decide, by decide, by decide, by decide, by decide⟩

/-- C7, amended: for every sequence of the standard steps in which the raw name
is last assigned by a `nameName` step (any standard steps before it, only
namespace and enclosing-namespace steps after it) and on which `newName`
succeeds, `checkName` accepts the local name of the qualified string. -/
theorem newName_local_name_validated (pre post : List Step) (s : GoString) (q : name)
    (hpost : ∀ t ∈ post, t.setsName = false)
    (h : newName ((pre ++ Step.fromName s :: post).map Step.setter) = (some q, none)) :
    checkName (localName q.String) = none := by
  obtain ⟨raw, hraw, hq⟩ := newName_some_inv _ q h
  rw [List.map_append, applySetters_append] at hraw
  rcases hpre : applySetters (pre.map Step.setter) ⟨[], [], []⟩ with ⟨st, _ | e⟩
  · rw [hpre, List.map_cons] at hraw
    obtain ⟨st1, hstep, hrest⟩ := applySetters_cons_ok _ _ _ _ hraw
    obtain ⟨h1, h2, _⟩ := nameName_ok_inv s st st1 hstep
    have hn : raw.n = s := by
      rw [applySetters_n_eq post st1 raw hrest hpost, h1]
    rw [hq]
    show checkName (localName (qualify raw.n raw.ns raw.ens)) = none
    rw [localName_qualify, hn]
    exact h2
  · rw [hpre] at hraw
    simp at hraw

/-- C7, amended, at the steps `nameSchema {"name": "1abc"}`, `nameName "Foo"`,
`nameNamespace "a"`. -/
theorem newName_local_name_validated_witness :
    (∀ t ∈ [Step.fromNamespace (lit "a")], t.setsName = false) ∧
    newName (([Step.fromSchema [(lit "name", Value.string (lit "1abc"))]] ++
        Step.fromName (lit "Foo") :: [Step.fromNamespace (lit "a")]).map Step.setter) =
      (some ⟨lit "a.Foo", lit "a", []⟩, none) ∧
    checkName (localName (name.String ⟨lit "a.Foo", lit "a", []⟩)) = none :=
  ⟨by simp [Step.setsName], by decide,
   newName_local_name_validated [Step.fromSchema [(lit "name", Value.string (lit "1abc"))]]
     [Step.fromNamespace (lit "a")] (lit "Foo") ⟨lit "a.Foo", lit "a", []⟩
     (by simp [Step.setsName]) (by decide)⟩

/-- C8: `nameSchema m` succeeds exactly when `m` has a non-empty string under
`"name"` and nothing or a string under `"namespace"`.  It fails with "ought to
have name key" when the name is absent, with the reason "name ought to be
non-empty string" when the name is not a string or is empty (whatever the
namespace is), and with the reason "namespace ought to be a string" when the
name is fine and the namespace is not a string; the text of the last two
errors is the reason followed by the type of the argument, `: *goavro.name`.
On success the raw name is the name of the schema and the raw namespace is the
namespace of the schema when present, unchanged when absent; neither is
checked for its characters. -/
theorem nameSchema_spec (m : Schema) (n : name) :
    ((nameSchema m n).2 = none ↔
      (∃ s, m.lookup (lit "name") = some (.string s) ∧ s ≠ []) ∧
      (m.lookup (lit "namespace") = none ∨
        ∃ t, m.lookup (lit "namespace") = some (.string t))) ∧
    (m.lookup (lit "name") = none →
      (nameSchema m n).2 = some (.errorString "ought to have name key")) ∧
    (∀ v, m.lookup (lit "name") = some v → (∀ s, v = .string s → s = []) →
      (nameSchema m n).2 =
        some (.errorString ("name ought to be non-empty string" ++ ": *goavro.name"))) ∧
    (∀ s v, m.lookup (lit "name") = some (.string s) → s ≠ [] →
      m.lookup (lit "namespace") = some v → (∀ t, v ≠ .string t) →
      (nameSchema m n).2 =
        some (.errorString ("namespace ought to be a string" ++ ": *goavro.name"))) ∧
    (∀ s t, m.lookup (lit "name") = some (.string s) → s ≠ [] →
      m.lookup (lit "namespace") = some (.string t) →
      nameSchema m n = (⟨s, t, n.ens⟩, none)) ∧
    (∀ s, m.lookup (lit "name") = some (.string s) → s ≠ [] →
      m.lookup (lit "namespace") = none →
      nameSchema m n = (⟨s, n.ns, n.ens⟩, none)) := by
  refine ⟨?_, ?_, ?_, ?_, ?_, ?_⟩
  · rcases hname : m.lookup (lit "name") with _ | v
    · rw [nameSchema_no_name m n hname]
      simp
    · by_cases hv : ∀ s, v = .string s → s = []
      · rw [nameSchema_bad_name m n v hname hv]
        constructor
        · intro h; simp at h
        · rintro ⟨⟨s, hs, hne⟩, _⟩
          exact absurd (hv s (Option.some.inj hs)) hne
      · push_neg at hv
        obtain ⟨s, hvs, hs⟩ := hv
        subst hvs
        rcases hns : m.lookup (lit "namespace") with _ | w
        · rw [nameSchema_no_namespace m n s hname hs hns]
          simp [hs]
        · by_cases hw : ∀ t, w ≠ .string t
          · rw [nameSchema_bad_namespace m n s w hname hs hns hw]
            constructor
            · intro h; simp at h
            · rintro ⟨_, h | ⟨t, ht⟩⟩
              · simp at h
              · exact absurd (Option.some.inj ht) (hw t)
          · push_neg at hw
            obtain ⟨t, hwt⟩ := hw
            subst hwt
            rw [nameSchema_namespace m n s t hname hs hns]
            simp [hs]
  · intro h
    rw [nameSchema_no_name m n h]
  · intro v h hv
    rw [nameSchema_bad_name m n v h hv]
    rfl
  · intro s v h hs hns hv
    rw [nameSchema_bad_namespace m n s v h hs hns hv]
    rfl
  · intro s t h hs hns
    rw [nameSchema_namespace m n s t h hs hns]
  · intro s h hs hns
    rw [nameSchema_no_namespace m n s h hs hns]

/-- C8 at four schemas: no name; a number as name together with a number as
namespace (the name is reported); a good name with a number as namespace; and
a name and a namespace with characters no name may hold, copied as they are. -/
theorem nameSchema_spec_witness :
    (nameSchema [(lit "namespace", Value.string (lit "a"))] ⟨[], [], []⟩).2 =
      some (.errorString "ought to have name key") ∧
    (nameSchema [(lit "name", Value.float64 1), (lit "namespace", Value.float64 2)]
        ⟨[], [], []⟩).2 =
      some (.errorString "name ought to be non-empty string: *goavro.name") ∧
    (nameSchema [(lit "name", Value.string (lit "Foo")), (lit "namespace", Value.float64 2)]
        ⟨[], [], []⟩).2 =
      some (.errorString "namespace ought to be a string: *goavro.name") ∧
    nameSchema [(lit "name", Value.string (lit "1 $")), (lit "namespace", Value.string (lit "-"))]
        ⟨[], [], lit "e"⟩ =
      (⟨lit "1 $", lit "-", lit "e"⟩, none) :=
  ⟨(nameSchema_spec [(lit "namespace", Value.string (lit "a"))] ⟨[], [], []⟩).2.1 rfl,
   (nameSchema_spec [(lit "name", Value.float64 1), (lit "namespace", Value.float64 2)]
      ⟨[], [], []⟩).2.2.1 (Value.float64 1) rfl (fun s hs => by cases hs),
   (nameSchema_spec [(lit "name", Value.string (lit "Foo")), (lit "namespace", Value.float64 2)]
      ⟨[], [], []⟩).2.2.2.1 (lit "Foo") (Value.float64 2) rfl (by decide) rfl
      (fun t ht => by cases ht),
   (nameSchema_spec
      [(lit "name", Value.string (lit "1 $")), (lit "namespace", Value.string (lit "-"))]
      ⟨[], [], lit "e"⟩).2.2.2.2.1 (lit "1 $") (lit "-") rfl (by decide) rfl⟩

/-- C9: `equals` is equality of the qualified strings, whatever the namespace
and enclosing-namespace fields are, and so is reflexive, symmetric and
transitive. -/
theorem equals_spec (a b c : name) :
    (a.equals b = true ↔ a.n = b.n) ∧
    (a.equals b = true ↔ a.String = b.String) ∧
    a.equals a = true ∧
    (a.equals b = true → b.equals a = true) ∧
    (a.equals b = true → b.equals c = true → a.equals c = true) := by
  have key : ∀ x y : name, x.equals y = true ↔ x.n = y.n := by
    intro x y
    unfold name.equals
    split_ifs with h <;> simp [h]
  refine ⟨key a b, key a b, (key a a).2 rfl, ?_, ?_⟩
  · intro h
    exact (key b a).2 ((key a b).1 h).symm
  · intro h1 h2
    exact (key a c).2 (((key a b).1 h1).trans ((key b c).1 h2))

/-- C9 at two names with the same qualified string and different namespace
fields, and at two names differing only in case. -/
theorem equals_spec_witness :
    name.equals ⟨lit "a.Foo", lit "a", []⟩ ⟨lit "a.Foo", [], lit "a"⟩ = true ∧
    name.equals ⟨lit "a.Foo", [], []⟩ ⟨lit "a.foo", [], []⟩ = false :=
  ⟨(equals_spec ⟨lit "a.Foo", lit "a", []⟩ ⟨lit "a.Foo", [], lit "a"⟩ ⟨[], [], []⟩).1.2 rfl,
   by decide⟩

/-- C10, as stated, fails at the empty namespace: the qualified string of
`newName(nameName("Foo"), nameNamespace(""))` is `Foo`, not `.Foo`. -/
theorem namespace_round_trip_empty :
    checkName (lit "Foo") = none ∧ dot ∉ lit "Foo" ∧
    newName [nameName (lit "Foo"), nameNamespace (lit "")] =
      (some ⟨lit "Foo", lit "", []⟩, none) ∧
    name.String ⟨lit "Foo", lit "", []⟩ ≠ lit "" ++ lit "." ++ lit "Foo" :=
  ⟨by decide, by decide, by decide, by decide⟩

/-- C10, amended: for every namespace `N` and every local name `L` without a
dot that `checkName` accepts, the name built by
`newName(nameName(L), nameNamespace(N))` has `namespace() == N`; its qualified
string is `N + "." + L` when `N` is non-empty and `L` when `N` is empty. -/
theorem namespace_round_trip (N L : GoString) (hdot : dot ∉ L) (hL : checkName L = none) :
    ∃ q, newName [nameName L, nameNamespace N] = (some q, none) ∧
      q.namespace_ = N ∧
      (N ≠ [] → q.String = N ++ lit "." ++ L) ∧
      (N = [] → q.String = L) := by
  have hok : checkName (localName L) = none := by rw [localName_of_not_mem L hdot]; exact hL
  have hraw : applySetters [nameName L, nameNamespace N] ⟨[], [], []⟩ = (⟨L, N, []⟩, none) := by
    simp only [applySetters, nameName_of_ok _ _ hok, nameNamespace]
  refine ⟨_, newName_of_ok _ _ hraw, ?_, ?_, ?_⟩
  · by_cases hN : N = []
    · subst hN
      simp only [qualify, if_neg hdot, ne_eq, not_true_eq_false, if_false]
      exact namespace_of_not_mem L _ _ hdot
    · simp only [qualify, if_neg hdot, ne_eq, hN, not_false_eq_true, if_true]
      rw [List.append_assoc, List.singleton_append]
      exact namespace_append N L _ _ hdot
  · intro hN
    simp [name.String, qualify_eq, hdot, hN]
  · intro hN
    simp [name.String, qualify_eq, hdot, hN]

/-- C10, amended, at `N = com.example` and `L = Foo`. -/
theorem namespace_round_trip_witness :
    dot ∉ lit "Foo" ∧ checkName (lit "Foo") = none ∧
    ∃ q, newName [nameName (lit "Foo"), nameNamespace (lit "com.example")] = (some q, none) ∧
      q.namespace_ = lit "com.example" ∧
      (lit "com.example" ≠ [] → q.String = lit "com.example" ++ lit "." ++ lit "Foo") ∧
      (lit "com.example" = [] → q.String = lit "Foo") :=
  ⟨by decide, by decide,
   namespace_round_trip (lit "com.example") (lit "Foo") (by decide) (by decide)⟩

/-- C11: `namespace()` returns the part of the qualified string before its last
dot, and the empty string when the qualified string has no dot.  The index it
slices at is `-1` (no dot) or an offset inside the string, so the slice is
always in range; a qualified string whose only dot is its first byte gives the
empty string. -/
theorem namespace_spec (n : name) (l : GoString) :
    (dot ∉ n.n → n.namespace_ = []) ∧
    (∀ p, n.n = p ++ lit "." ++ l → dot ∉ l → n.namespace_ = p) ∧
    (dot ∈ n.n → ∃ p t, n.n = p ++ lit "." ++ t ∧ dot ∉ t ∧ n.namespace_ = p) ∧
    (strings.LastIndex n.n dot = -1 ↔ dot ∉ n.n) ∧
    (-1 ≤ strings.LastIndex n.n dot ∧ strings.LastIndex n.n dot < (n.n.length : Int)) ∧
    (n.n = lit "." ++ l → dot ∉ l → n.namespace_ = []) := by
  obtain ⟨s, ns, ens⟩ := n
  have hdec : ∀ p t : GoString, s = p ++ lit "." ++ t → dot ∉ t →
      name.namespace_ ⟨s, ns, ens⟩ = p := by
    intro p t hs ht
    rw [hs, lit_dot, List.append_assoc, List.singleton_append]
    exact namespace_append p t ns ens ht
  refine ⟨namespace_of_not_mem s ns ens, fun p => hdec p l, ?_,
    LastIndexByte_eq_neg_one_iff s dot, ⟨LastIndexByte_ge s dot, LastIndexByte_lt s dot⟩, ?_⟩
  · intro hmem
    obtain ⟨p, t, hs, ht⟩ := exists_last_dot s hmem
    have hs1 : s = p ++ lit "." ++ t := by
      rw [hs, lit_dot, List.append_assoc, List.singleton_append]
    exact ⟨p, t, hs1, ht, hdec p t hs1 ht⟩
  · intro hs hl
    exact hdec [] l (by simpa using hs) hl

/-- C11 at `com.example.Foo`, at `Foo` and at `.Foo`. -/
theorem namespace_spec_witness :
    name.namespace_ ⟨lit "com.example.Foo", [], []⟩ = lit "com.example" ∧
    name.namespace_ ⟨lit "Foo", lit "a", lit "b"⟩ = [] ∧
    name.namespace_ ⟨lit "." ++ lit "Foo", [], []⟩ = [] :=
  ⟨(namespace_spec ⟨lit "com.example.Foo", [], []⟩ (lit "Foo")).2.1 (lit "com.example")
      (by decide) (by decide),
   (namespace_spec ⟨lit "Foo", lit "a", lit "b"⟩ []).1 (by decide),
   (namespace_spec ⟨lit "." ++ lit "Foo", [], []⟩ (lit "Foo")).2.2.2.2.2 rfl (by decide)⟩

/-- C12, as stated, fails: the three failures of `nameSchema` (no name key, a
name that is not a string, a namespace that is not a string) are reported by
errors made with `fmt.Errorf`, which are not `ErrInvalidName` values. -/
theorem newName_schema_error_kind :
    newName [nameSchema []] = (none, some (.errorString "ought to have name key")) ∧
    newName [nameSchema [(lit "name", Value.float64 1)]] =
      (none, some (.errorString "name ought to be non-empty string: *goavro.name")) ∧
    newName [nameSchema [(lit "name", Value.string (lit "Foo")),
        (lit "namespace", Value.float64 2)]] =
      (none, some (.errorString "namespace ought to be a string: *goavro.name")) ∧
    ∀ text Message, GoError.errorString text ≠ GoError.ErrInvalidName Message :=
  ⟨by decide, by decide, by decide, fun _ _ h => by cases h⟩

/-- C12, amended: when `newName` fails on a sequence of the standard steps it
returns no name and the error of the first failing step, the steps before it
having succeeded; that step is a `nameName` or a `nameSchema` step, and the
kind of the error goes by it.  For `nameName(s)` it is the `ErrInvalidName` that
`checkName` returns on the local name of `s`, with one of its three reasons.
For `nameSchema(m)` it is an error made by `fmt.Errorf`: "ought to have name
key" when `m` has no name, the text on the name when the name is not a string
or is empty, the text on the namespace when the name is fine and the namespace
is not a string. -/
theorem newName_error_kinds (steps : List Step) (e : GoError)
    (h : (newName (steps.map Step.setter)).2 = some e) :
    (newName (steps.map Step.setter)).1 = none ∧
    ∃ pre t post st st1, steps = pre ++ t :: post ∧
      StepsOk ⟨[], [], []⟩ (pre.map Step.setter) st ∧
      t.setter st = (st1, some e) ∧
      ((∃ s, t = Step.fromName s ∧ checkName (localName s) = some e ∧
          (e = .ErrInvalidName "not be empty" ∨
           e = .ErrInvalidName "start with [A-Za-z_]" ∨
           e = .ErrInvalidName
             "have second and remaining characters contain only [A-Za-z0-9_]")) ∨
       (∃ m, t = Step.fromSchema m ∧
          ((m.lookup (lit "name") = none ∧ e = .errorString "ought to have name key") ∨
           (∃ v, m.lookup (lit "name") = some v ∧ (∀ s, v = .string s → s = []) ∧
             e = .errorString "name ought to be non-empty string: *goavro.name") ∨
           (∃ s v, m.lookup (lit "name") = some (.string s) ∧ s ≠ [] ∧
             m.lookup (lit "namespace") = some v ∧ (∀ u, v ≠ .string u) ∧
             e = .errorString "namespace ought to be a string: *goavro.name")))) := by
  obtain ⟨st0, hst⟩ := newName_err_inv _ e h
  refine ⟨by rw [newName_of_err _ st0 e hst], ?_⟩
  obtain ⟨pre, t, post, st, hs, hok, hstep⟩ := applySetters_steps_first_failure _ _ _ _ hst
  refine ⟨pre, t, post, st, st0, hs, hok, hstep, ?_⟩
  cases t with
  | fromSchema m => exact Or.inr ⟨m, rfl, nameSchema_err_cases m st st0 e hstep⟩
  | fromName s =>
    have hsnd : (nameName s st).2 = some e := by
      show (Step.setter (Step.fromName s) st).2 = some e
      rw [hstep]
    rw [nameName_snd] at hsnd
    refine Or.inl ⟨s, rfl, hsnd, ?_⟩
    rcases checkName_cases (localName s) with c | c | c | c
    · rw [c] at hsnd; simp at hsnd
    · rw [c] at hsnd; exact Or.inl (Option.some.inj hsnd).symm
    · rw [c] at hsnd; exact Or.inr (Or.inl (Option.some.inj hsnd).symm)
    · rw [c] at hsnd; exact Or.inr (Or.inr (Option.some.inj hsnd).symm)
  | fromNamespace x => simp [Step.setter, nameNamespace] at hstep
  | fromEnclosingNamespace x => simp [Step.setter, nameEnclosingNamespace] at hstep

/-- C12, amended, at the steps `nameNamespace "a"`, `nameSchema {"name": 1}`,
`nameName ""`: the error is the one of the schema step, the first to fail, and
not the `ErrInvalidName` of the later `nameName ""`. -/
theorem newName_error_kinds_witness :
    (newName ([Step.fromNamespace (lit "a"), Step.fromSchema [(lit "name", Value.float64 1)],
        Step.fromName (lit "")].map Step.setter)).2 =
      some (.errorString "name ought to be non-empty string: *goavro.name") ∧
    (newName ([Step.fromNamespace (lit "a"), Step.fromSchema [(lit "name", Value.float64 1)],
        Step.fromName (lit "")].map Step.setter)).1 = none ∧
    ∃ pre t post st st1,
      [Step.fromNamespace (lit "a"), Step.fromSchema [(lit "name", Value.float64 1)],
        Step.fromName (lit "")] = pre ++ t :: post ∧
      StepsOk ⟨[], [], []⟩ (pre.map Step.setter) st ∧
      t.setter st =
        (st1, some (.errorString "name ought to be non-empty string: *goavro.name")) :=
  ⟨by decide,
   (newName_error_kinds
      [Step.fromNamespace (lit "a"), Step.fromSchema [(lit "name", Value.float64 1)],
        Step.fromName (lit "")]
      (.errorString "name ought to be non-empty string: *goavro.name") (by decide)).1,
   match newName_error_kinds
      [Step.fromNamespace (lit "a"), Step.fromSchema [(lit "name", Value.float64 1)],
        Step.fromName (lit "")]
      (.errorString "name ought to be non-empty string: *goavro.name") (by decide) with
   | ⟨_, pre, t, post, st, st1, h1, h2, h3, _⟩ => ⟨pre, t, post, st, st1, h1, h2, h3⟩⟩

/-- C13: `nameNamespace x` and `nameEnclosingNamespace x` succeed for every
string `x`, whatever its characters; the first assigns only the namespace and
the second only the enclosing namespace, the other two fields staying as they
were. -/
theorem namespace_steps_frame (x : GoString) (n : name) :
    (nameNamespace x n).2 = none ∧
    (nameNamespace x n).1.ns = x ∧
    (nameNamespace x n).1.n = n.n ∧
    (nameNamespace x n).1.ens = n.ens ∧
    (nameEnclosingNamespace x n).2 = none ∧
    (nameEnclosingNamespace x n).1.ens = x ∧
    (nameEnclosingNamespace x n).1.n = n.n ∧
    (nameEnclosingNamespace x n).1.ns = n.ns :=
  ⟨rfl, rfl, rfl, rfl, rfl, rfl, rfl, rfl⟩

/-- C14, as stated, fails: `checkName` tests every character of its argument,
so it rejects `com.example.Foo` although it accepts `Foo`, the part after the
final dot. -/
theorem checkName_whole_string :
    dot ∈ lit "com.example.Foo" ∧
    localName (lit "com.example.Foo") = lit "Foo" ∧
    checkName (lit "Foo") = none ∧
    checkName (lit "com.example.Foo") =
      some (.ErrInvalidName
        "have second and remaining characters contain only [A-Za-z0-9_]") :=
  ⟨by decide, by decide, by decide, by decide⟩

/-- C14, amended: `checkName` validates the whole candidate and rejects every
candidate that contains a dot: with the first-character reason when its first
character is outside `[A-Za-z_]`, and with the other-characters reason
otherwise.  It is `nameName` that applies `checkName` to the part after the
final dot only, returns that result, and on success stores the whole string,
so the embedded namespace is accepted unvalidated by `nameName`. -/
theorem checkName_rejects_dot (s : GoString) (n : name) (h : dot ∈ s) :
    (∃ b rest, s = b :: rest ∧
      (isNameStart b = false →
        checkName s = some (.ErrInvalidName "start with [A-Za-z_]")) ∧
      (isNameStart b = true →
        checkName s = some (.ErrInvalidName
          "have second and remaining characters contain only [A-Za-z0-9_]"))) ∧
    checkName s ≠ none ∧
    (nameName s n).2 = checkName (localName s) ∧
    (checkName (localName s) = none → nameName s n = ({ n with n := s }, none)) := by
  refine ⟨?_, ?_, nameName_snd s n, nameName_of_ok s n⟩
  · cases s with
    | nil => simp at h
    | cons b rest =>
      refine ⟨b, rest, rfl, ?_, ?_⟩
      · intro c1
        rw [checkName_cons, if_pos c1]
      · intro c1
        rcases checkName_of_dot_mem (b :: rest) h with c | c
        · rw [checkName_cons, if_neg (by simp [c1])] at c
          split_ifs at c
          exact absurd c (by decide)
        · exact c
  · rcases checkName_of_dot_mem s h with c | c <;> rw [c] <;> simp

/-- C14, amended, at `com.example.Foo` and at `.Foo`: `checkName` rejects the
first by its other-characters rule and the second by its first-character rule,
and `nameName` accepts both and stores them whole. -/
theorem checkName_rejects_dot_witness :
    dot ∈ lit "com.example.Foo" ∧
    checkName (lit "com.example.Foo") =
      some (.ErrInvalidName
        "have second and remaining characters contain only [A-Za-z0-9_]") ∧
    checkName (lit ".Foo") = some (.ErrInvalidName "start with [A-Za-z_]") ∧
    nameName (lit ".Foo") ⟨[], [], []⟩ = (⟨lit ".Foo", [], []⟩, none) ∧
    nameName (lit "com.example.Foo") ⟨[], [], []⟩ =
      ({ (⟨[], [], []⟩ : name) with n := lit "com.example.Foo" }, none) :=
  ⟨by decide, by decide, by decide, by decide,
   (checkName_rejects_dot (lit "com.example.Foo") ⟨[], [], []⟩ (by decide)).2.2.2
     (by decide)⟩

/-- C15: for a local name `L` without a dot that `checkName` accepts, the name
built from `nameName(L)`, `nameNamespace(ns)`, `nameEnclosingNamespace(ens)`
has `namespace() == ns` when `ns` is non-empty, `namespace() == ens` when `ns`
is empty and `ens` is not, and the empty `namespace()` when both are empty; so
`namespace()` differs from the stored namespace field when `ns` is empty and
`ens` is not. -/
theorem derived_namespace_precedence (L ns ens : GoString) (hdot : dot ∉ L)
    (hL : checkName L = none) :
    ∃ q, newName [nameName L, nameNamespace ns, nameEnclosingNamespace ens] = (some q, none) ∧
      q.ns = ns ∧ q.ens = ens ∧
      (ns ≠ [] → q.namespace_ = ns) ∧
      (ns = [] → ens ≠ [] → q.namespace_ = ens) ∧
      (ns = [] → ens = [] → q.namespace_ = []) ∧
      (ns = [] → ens ≠ [] → q.namespace_ ≠ q.ns) := by
  have hok : checkName (localName L) = none := by rw [localName_of_not_mem L hdot]; exact hL
  have hnew := newName_three L ns ens
  rw [hok] at hnew
  have h1 : ns ≠ [] → name.namespace_ ⟨qualify L ns ens, ns, ens⟩ = ns := by
    intro hns
    simp only [qualify, if_neg hdot, ne_eq, hns, not_false_eq_true, if_true]
    rw [List.append_assoc, List.singleton_append]
    exact namespace_append ns L _ _ hdot
  have h2 : ns = [] → ens ≠ [] → name.namespace_ ⟨qualify L ns ens, ns, ens⟩ = ens := by
    intro hns hens
    simp only [qualify, if_neg hdot, ne_eq, hns, not_true_eq_false, if_false, hens,
      not_false_eq_true, if_true]
    rw [List.append_assoc, List.singleton_append]
    exact namespace_append ens L _ _ hdot
  have h3 : ns = [] → ens = [] → name.namespace_ ⟨qualify L ns ens, ns, ens⟩ = [] := by
    intro hns hens
    simp only [qualify, if_neg hdot, ne_eq, hns, hens, not_true_eq_false, if_false]
    exact namespace_of_not_mem L _ _ hdot
  refine ⟨⟨qualify L ns ens, ns, ens⟩, hnew, rfl, rfl, h1, h2, h3, ?_⟩
  intro hns hens
  rw [h2 hns hens]
  show ens ≠ ns
  rw [hns]
  exact hens

/-- C15 at `L = Foo`, an empty namespace and the enclosing namespace
`com.example`: the derived namespace is `com.example`, the stored one empty. -/
theorem derived_namespace_precedence_witness :
    dot ∉ lit "Foo" ∧ checkName (lit "Foo") = none ∧
    newName [nameName (lit "Foo"), nameNamespace (lit ""),
        nameEnclosingNamespace (lit "com.example")] =
      (some ⟨lit "com.example.Foo", [], lit "com.example"⟩, none) ∧
    name.namespace_ ⟨lit "com.example.Foo", [], lit "com.example"⟩ = lit "com.example" ∧
    ∃ q, newName [nameName (lit "Foo"), nameNamespace (lit ""),
        nameEnclosingNamespace (lit "com.example")] = (some q, none) ∧
      q.ns = lit "" ∧ q.ens = lit "com.example" ∧
      (lit "" ≠ [] → q.namespace_ = lit "") ∧
      (lit "" = [] → lit "com.example" ≠ [] → q.namespace_ = lit "com.example") ∧
      (lit "" = [] → lit "com.example" = [] → q.namespace_ = []) ∧
      (lit "" = [] → lit "com.example" ≠ [] → q.namespace_ ≠ q.ns) :=
  ⟨by decide, by decide, by decide, by decide,
   derived_namespace_precedence (lit "Foo") (lit "") (lit "com.example") (by decide)
     (by decide)⟩

/-- C16: when `newName` succeeds on steps whose raw name is assigned by a
`nameName(s)` step followed only by `nameNamespace` and
`nameEnclosingNamespace` steps (the steps before it may be any, so in
particular namespace steps only), resolving the canonical string of the result
again with `newName(nameName(q.String()))` succeeds and returns a name with the
same qualified string, equal to `q` under `equals`. -/
theorem newName_reresolve (pre post : List Step) (s : GoString) (q : name)
    (hpost : ∀ t ∈ post, t.setsName = false)
    (h : newName ((pre ++ Step.fromName s :: post).map Step.setter) = (some q, none)) :
    ∃ q1, newName [nameName q.String] = (some q1, none) ∧
      q1.String = q.String ∧ q1.equals q = true := by
  obtain ⟨raw, hn, hc, hq⟩ := newName_last_fromName pre post s q hpost h
  have hloc : checkName (localName q.String) = none := by
    rw [hq]
    show checkName (localName (qualify raw.n raw.ns raw.ens)) = none
    rw [localName_qualify, hn]
    exact hc
  refine ⟨⟨q.String, [], []⟩, newName_single_nameName q.String hloc, rfl, ?_⟩
  simp [name.equals, name.String]

/-- C16 at the steps `nameEnclosingNamespace "a"`, `nameName "Foo"`,
`nameNamespace "b.c"`, which resolve to `b.c.Foo`. -/
theorem newName_reresolve_witness :
    newName (([Step.fromEnclosingNamespace (lit "a")] ++
        Step.fromName (lit "Foo") :: [Step.fromNamespace (lit "b.c")]).map Step.setter) =
      (some ⟨lit "b.c.Foo", lit "b.c", lit "a"⟩, none) ∧
    newName [nameName (lit "b.c.Foo")] = (some ⟨lit "b.c.Foo", [], []⟩, none) ∧
    ∃ q1, newName [nameName (name.String ⟨lit "b.c.Foo", lit "b.c", lit "a"⟩)] =
        (some q1, none) ∧
      q1.String = name.String ⟨lit "b.c.Foo", lit "b.c", lit "a"⟩ ∧
      q1.equals ⟨lit "b.c.Foo", lit "b.c", lit "a"⟩ = true :=
  ⟨by decide, by decide,
   newName_reresolve [Step.fromEnclosingNamespace (lit "a")] [Step.fromNamespace (lit "b.c")]
     (lit "Foo") ⟨lit "b.c.Foo", lit "b.c", lit "a"⟩ (by simp [Step.setsName]) (by decide)⟩

/-- C17: `newName` on any permutation of the three steps `nameName(s)`,
`nameNamespace(ns)`, `nameEnclosingNamespace(ens)` has the same outcome: the
error of the name when `nameName(s)` fails, and otherwise the name with the
qualified string of the three fields and with the namespace and enclosing
namespace as given. -/
theorem newName_order_irrelevant (s ns ens : GoString) (l : List nameSetter)
    (h : l.Perm [nameName s, nameNamespace ns, nameEnclosingNamespace ens]) :
    newName l = newName [nameName s, nameNamespace ns, nameEnclosingNamespace ens] ∧
    (∀ e, checkName (localName s) = some e → newName l = (none, some e)) ∧
    (checkName (localName s) = none →
      newName l = (some ⟨qualify s ns ens, ns, ens⟩, none)) := by
  have key : newName l =
      newName [nameName s, nameNamespace ns, nameEnclosingNamespace ens] := by
    rcases perm_three _ _ _ l h with e | e | e | e | e | e <;> subst e <;>
      apply newName_of_fields
    all_goals
      first
      | (intro hc
         simp only [applySetters, nameName_of_ok _ _ hc, nameNamespace,
           nameEnclosingNamespace])
      | (intro e hc
         simp only [applySetters, nameName_of_err _ _ e hc, nameNamespace,
           nameEnclosingNamespace]
         exact ⟨_, rfl⟩)
  refine ⟨key, ?_, ?_⟩
  · intro e hc
    rw [key, newName_three, hc]
  · intro hc
    rw [key, newName_three, hc]

/-- C17 at the order enclosing namespace, namespace, name. -/
theorem newName_order_irrelevant_witness :
    newName [nameEnclosingNamespace (lit "a"), nameNamespace (lit "b"), nameName (lit "Foo")] =
      newName [nameName (lit "Foo"), nameNamespace (lit "b"), nameEnclosingNamespace (lit "a")] ∧
    newName [nameEnclosingNamespace (lit "a"), nameNamespace (lit "b"), nameName (lit "Foo")] =
      (some ⟨lit "b.Foo", lit "b", lit "a"⟩, none) :=
  ⟨(newName_order_irrelevant (lit "Foo") (lit "b") (lit "a")
      [nameEnclosingNamespace (lit "a"), nameNamespace (lit "b"), nameName (lit "Foo")]
      ((List.Perm.swap _ _ _).trans
        (((List.Perm.swap _ _ _).cons _).trans (List.Perm.swap _ _ _)))).1,
   by decide⟩

/-- C18: for a name `s` containing a dot, the last element of
`namespaceSplitter.Split(s, -1)`, which is the segment `nameName` validates,
has no dot and is the part of `s` after its last dot, and `namespace()` of the
name `s`, a dot and that segment make up `s` again. -/
theorem split_agrees_with_namespace (s ns ens : GoString)
    (h : strings.Contains s dot = true) :
    ∃ t, (namespaceSplitter.Split s).getLast? = some t ∧
      nameWithoutNamespace s = t ∧
      dot ∉ t ∧
      t = localName s ∧
      (∃ p, s = p ++ lit "." ++ t) ∧
      name.namespace_ ⟨s, ns, ens⟩ ++ lit "." ++ t = s := by
  obtain ⟨p, l, hs, hl⟩ := exists_last_dot s ((Contains_iff s dot).1 h)
  obtain ⟨strs, hsplit⟩ := Split_append p l hl
  have hs1 : s = p ++ lit "." ++ l := by
    rw [hs, lit_dot, List.append_assoc, List.singleton_append]
  refine ⟨l, ?_, ?_, hl, ?_, ⟨p, hs1⟩, ?_⟩
  · rw [hs, hsplit]
    simp
  · rw [nameWithoutNamespace_eq, hs, localName_append p l hl]
  · rw [hs, localName_append p l hl]
  · have hns : name.namespace_ ⟨s, ns, ens⟩ = p := by
      rw [hs]
      exact namespace_append p l ns ens hl
    rw [hns, ← hs1]

/-- C18 at `com.example.Foo`. -/
theorem split_agrees_with_namespace_witness :
    strings.Contains (lit "com.example.Foo") dot = true ∧
    namespaceSplitter.Split (lit "com.example.Foo") =
      [lit "com", lit "example", lit "Foo"] ∧
    name.namespace_ ⟨lit "com.example.Foo", [], []⟩ = lit "com.example" ∧
    ∃ t, (namespaceSplitter.Split (lit "com.example.Foo")).getLast? = some t ∧
      nameWithoutNamespace (lit "com.example.Foo") = t ∧
      dot ∉ t ∧
      t = localName (lit "com.example.Foo") ∧
      (∃ p, lit "com.example.Foo" = p ++ lit "." ++ t) ∧
      name.namespace_ ⟨lit "com.example.Foo", [], []⟩ ++ lit "." ++ t =
        lit "com.example.Foo" :=
  ⟨by decide, by decide, by decide,
   split_agrees_with_namespace (lit "com.example.Foo") [] [] (by decide)⟩

end Goavro
